import Mathlib

/-!
Shallow embedding of the track/task registry component of
`conductor/manus_conductor.py` (class `ManusCondor`), together with proofs
of the specification claims about it.

Strings are modelled as `List Char`.  The Python regular expressions used by
the source are small and fixed, so each one is translated into a dedicated
matching function that reproduces Python `re` semantics (leftmost search,
greedy quantifiers with backtracking, `.` not matching a newline, `\s`
matching blanks including newlines, `re.sub` replacing every non-overlapping
match from left to right).
-/

set_option maxHeartbeats 1000000
set_option maxRecDepth 100000

abbrev Str := List Char

/-- Python `\s` / `str.strip` whitespace, ASCII range (documents are ASCII). -/
def isWs (c : Char) : Bool :=
  c = ' ' || c = '\t' || c = '\n' || c = '\r' || c = '\x0b' || c = '\x0c'

/-- Python `str.strip()`: drop whitespace from both ends. -/
def stripL (l : Str) : Str :=
  ((l.dropWhile isWs).reverse.dropWhile isWs).reverse

/-- Substring test: does `pat` occur (contiguously) anywhere in `l`?
Mirrors Python `pat in l` for nonempty `pat`. -/
def hasSub (pat : Str) : Str → Bool
  | [] => pat.isPrefixOf []
  | c :: r => pat.isPrefixOf (c :: r) || hasSub pat r

/-- Leftmost-match search: try the matcher `f` at every suffix, left to
right, returning the first success.  This is how `re.search` scans. -/
def scanFirst (f : Str → Option α) : Str → Option α
  | [] => none
  | c :: t =>
    match f (c :: t) with
    | some x => some x
    | none => scanFirst f t

/-- The three status markers accepted by the regex class `[ ~x]`. -/
def isMarker (c : Char) : Bool := c = ' ' || c = '~' || c = 'x'

/-- `status_map = {' ': 'pending', '~': 'in_progress', 'x': 'completed'}`
with default `'pending'` (`status_map.get(status_char, 'pending')`). -/
def statusName (c : Char) : Str :=
  if c = ' ' then "pending".data
  else if c = '~' then "in_progress".data
  else if c = 'x' then "completed".data
  else "pending".data

/-- `status_map = {'pending': ' ', 'in_progress': '~', 'completed': 'x'}`
with default `' '` (`status_map.get(new_status, ' ')`). -/
def statusChar (s : Str) : Char :=
  if s = "pending".data then ' '
  else if s = "in_progress".data then '~'
  else if s = "completed".data then 'x'
  else ' '

/-- Semantics of `\s*(.+)` at the start of `l` (as in `Track:\s*(.+)`):
the greedy `\s*` eats the maximal whitespace run, then backtracks just far
enough for `.+` (one or more non-newline characters) to match; returns the
text captured by `(.+)`, or `none` when no backtracking position works. -/
def wsDotPlus (l : Str) : Option Str :=
  let k := (l.takeWhile isWs).length
  if k < l.length then some ((l.drop k).takeWhile (fun c => c != '\n'))
  else
    match (l.takeWhile isWs).reverse.dropWhile (fun c => c == '\n') with
    | c :: _ => some [c]
    | [] => none

/-- Match of `##\s*\[([ ~x])\]\s*Track:\s*(.+)` anchored at the current
position, given the text `t` following the two `#` characters.  Returns
(marker character, text captured by `(.+)`). -/
def headingAfterHashes (t : Str) : Option (Char × Str) :=
  match t.dropWhile isWs with
  | '[' :: m :: ']' :: l2 =>
    if isMarker m then
      let l3 := l2.dropWhile isWs
      if "Track:".data.isPrefixOf l3 then
        match wsDotPlus (l3.drop 6) with
        | some g2 => some (m, g2)
        | none => none
      else none
    else none
  | _ => none

/-- Anchored match of the heading pattern at the start of `s`. -/
def headingAt (s : Str) : Option (Char × Str) :=
  match s with
  | '#' :: '#' :: t => headingAfterHashes t
  | _ => none

/-- `re.search(r'##\s*\[([ ~x])\]\s*Track:\s*(.+)', s)`. -/
def headingSearch (s : Str) : Option (Char × Str) :=
  scanFirst headingAt s

/-- The literal part of the folder-link pattern. -/
def folderPat : Str := "[conductor/tracks/".data

/-- Anchored match of `\[conductor/tracks/([^\]]+)\]` at the start of `s`:
the literal, then a maximal nonempty run of non-`]` characters, then `]`.
Returns the captured group. -/
def folderAt (s : Str) : Option Str :=
  if folderPat.isPrefixOf s then
    let rest := s.drop 18
    let g := rest.takeWhile (fun c => c != ']')
    if g.length = 0 then none
    else if g.length < rest.length then some g
    else none
  else none

/-- `re.search(r'\[conductor/tracks/([^\]]+)\]', s)`. -/
def folderSearch (s : Str) : Option Str :=
  scanFirst folderAt s

/-- Decimal value of a digit run, as Python `int` does. -/
def toNatL (l : Str) : Nat :=
  l.foldl (fun a c => a * 10 + (c.toNat - 48)) 0

/-- Anchored match of `track-(\d+)` at the start of `s`. -/
def trackNumAt (s : Str) : Option Nat :=
  if "track-".data.isPrefixOf s then
    let ds := (s.drop 6).takeWhile Char.isDigit
    if ds.isEmpty then none else some (toNatL ds)
  else none

/-- `re.search(r'track-(\d+)', s)`, yielding the captured number. -/
def trackNumSearch (s : Str) : Option Nat :=
  scanFirst trackNumAt s

/-! ### The track registry: parsing (`parse_tracks` and friends) -/

/-- A parsed track record, as built by `parse_tracks`. -/
structure Track where
  id : Str
  description : Str
  status : Str
  folder : Str
deriving DecidableEq, Repr

/-- The `"---"` separator of the registry grammar. -/
def dashes : Str := ['-', '-', '-']

/-- Fuel-driven worker for `splitDashes` (structural recursion, so the
kernel can evaluate it inside `decide`/`rfl`; the fuel never runs out when
it starts above the length of the string). -/
def splitDashesF : Nat → Str → List Str
  | 0, l => [l]
  | _ + 1, [] => [[]]
  | fuel + 1, c :: rest =>
    if dashes.isPrefixOf (c :: rest) then [] :: splitDashesF fuel (rest.drop 2)
    else
      match splitDashesF fuel rest with
      | s :: ss => (c :: s) :: ss
      | [] => [[c]]

/-- Python `content.split("---")`: split on every (non-overlapping,
leftmost-first) occurrence of the three-character separator. -/
def splitDashes (l : Str) : List Str := splitDashesF (l.length + 1) l

/-- The per-section body of the `parse_tracks` loop: extract the heading
(else `continue`), extract the folder link, and keep the record only when a
track id was found (`if track_id:`). -/
def sectionTrack (sec : Str) : Option Track :=
  match headingSearch sec with
  | none => none
  | some (m, g2) =>
    match folderSearch sec with
    | none => none
    | some tid =>
      some ⟨tid, stripL g2, statusName m, "conductor/tracks/".data ++ tid⟩

/-- The `for section in sections[1:]` accumulation loop of `parse_tracks`. -/
def parseGo : List Str → List Track
  | [] => []
  | sec :: rest =>
    match sectionTrack sec with
    | some t => t :: parseGo rest
    | none => parseGo rest

/-- `parse_tracks` applied to the registry text (the file-existence check is
handled by the callers, which pass an `Option Str`). -/
def parseTracks (content : Str) : List Track :=
  parseGo ((splitDashes content).drop 1)

/-- `parse_tracks` at the store level: a missing `tracks.md` yields `[]`. -/
def parseTracksOpt (reg : Option Str) : List Track :=
  match reg with
  | none => []
  | some content => parseTracks content

/-- `get_track_by_id`: first parsed track with the given id. -/
def getTrackById (reg : Option Str) (tid : Str) : Option Track :=
  (parseTracksOpt reg).find? (fun t => t.id = tid)

/-- The loop of `get_next_pending_track`: first track whose status is not
`completed`. -/
def firstIncomplete : List Track → Option Track
  | [] => none
  | t :: ts => if t.status ≠ "completed".data then some t else firstIncomplete ts

/-- `get_next_pending_track`. -/
def getNextPendingTrack (reg : Option Str) : Option Track :=
  firstIncomplete (parseTracksOpt reg)

/-! ### `update_track_status`: `re.sub` over the heading pattern -/

/-- The two-character trigger `##` with which every match of the
substitution pattern `##\s*\[[ ~x]\]\s*Track:\s*desc` begins. -/
def hash2 : Str := ['#', '#']

/-- Semantics of `\s*` followed by the escaped literal `desc` (the tail of
the substitution pattern `##\s*\[[ ~x]\]\s*Track:\s*re.escape(desc)`): the
greedy `\s*` tries the longest whitespace consumption first and backtracks;
`j` counts the whitespace characters still allowed.  On success, returns the
text remaining after the literal. -/
def wsLitGo (desc l : Str) : Nat → Option Str
  | 0 => if desc.isPrefixOf l then some (l.drop desc.length) else none
  | j + 1 =>
    if desc.isPrefixOf (l.drop (j + 1)) then some (l.drop (j + 1 + desc.length))
    else wsLitGo desc l j

/-- `\s*desc` anchored at `l`: greedy maximal whitespace run, backtracking
until the literal matches. -/
def wsLit (desc l : Str) : Option Str :=
  wsLitGo desc l (l.takeWhile isWs).length

/-- Anchored match of `##\s*\[[ ~x]\]\s*Track:\s*desc` given the text `t`
after the two `#`; returns the text remaining after the whole match. -/
def subHeadAfter (desc t : Str) : Option Str :=
  match t.dropWhile isWs with
  | '[' :: m :: ']' :: l2 =>
    if isMarker m then
      if "Track:".data.isPrefixOf (l2.dropWhile isWs) then
        wsLit desc ((l2.dropWhile isWs).drop 6)
      else none
    else none
  | _ => none

/-- Fuel-driven worker for `subAll` (the fuel never runs out when it starts
above the length of the string: each step consumes at least one character).
A match can only begin at an occurrence of `##`; on a match the whole
pattern is replaced by `## [c] Track: desc` and the scan resumes after the
match, otherwise the scan advances one character. -/
def subAllF (desc : Str) (c : Char) : Nat → Str → Str
  | 0, s => s
  | _ + 1, [] => []
  | fuel + 1, c' :: t =>
    if hash2.isPrefixOf (c' :: t) then
      match subHeadAfter desc (t.drop 1) with
      | some rem =>
        '#' :: '#' :: ' ' :: '[' :: c :: ']' :: ' ' ::
          ("Track: ".data ++ desc ++ subAllF desc c fuel rem)
      | none => c' :: subAllF desc c fuel t
    else c' :: subAllF desc c fuel t

/-- `re.sub(r'##\s*\[[ ~x]\]\s*Track:\s*' + re.escape(desc), repl, s)` where
`repl = "## [" + c + "] Track: " + desc`: scan left to right, replace every
match, resume after each match. -/
def subAll (desc : Str) (c : Char) (s : Str) : Str := subAllF desc c (s.length + 1) s

/-- `update_track_status(track_id, new_status)`.  `Except.error ()` models
the `FileNotFoundError` raised by `read_text` when `tracks.md` is missing;
otherwise the new registry content is returned (the function always writes
the post-substitution text back, and performs no write when the id is not
found). -/
def updateTrackStatus (reg : Option Str) (tid s : Str) :
    Except Unit (Option Str) :=
  match reg with
  | none => .error ()
  | some content =>
    let c := statusChar s
    match getTrackById (some content) tid with
    | none => .ok (some content)
    | some tr => .ok (some (subAll tr.description c content))

/-! ### `update_task_status`: `re.sub` over the task pattern -/

/-- Anchored match of `-\s*\[[ ~x]\]\s*Task:\s*desc` given the text `t`
after the `-`; returns the text remaining after the whole match. -/
def subTaskAfter (desc t : Str) : Option Str :=
  match t.dropWhile isWs with
  | '[' :: m :: ']' :: l2 =>
    if isMarker m then
      if "Task:".data.isPrefixOf (l2.dropWhile isWs) then
        wsLit desc ((l2.dropWhile isWs).drop 5)
      else none
    else none
  | _ => none

/-- Fuel-driven worker for `subTaskAll`. -/
def subTaskAllF (desc : Str) (c : Char) : Nat → Str → Str
  | 0, s => s
  | _ + 1, [] => []
  | fuel + 1, '-' :: t =>
    match subTaskAfter desc t with
    | some rem =>
      '-' :: ' ' :: '[' :: c :: ']' :: ' ' ::
        ("Task: ".data ++ desc ++ subTaskAllF desc c fuel rem)
    | none => '-' :: subTaskAllF desc c fuel t
  | fuel + 1, c' :: t => c' :: subTaskAllF desc c fuel t

/-- `re.sub(r'-\s*\[[ ~x]\]\s*Task:\s*' + re.escape(desc), repl, s)` with
`repl = "- [" + c + "] Task: " + desc`. -/
def subTaskAll (desc : Str) (c : Char) (s : Str) : Str :=
  subTaskAllF desc c (s.length + 1) s

/-- `update_task_status(track_id, task_description, new_status)` modelled on
the content of the track's `plan.md`: a missing plan file is a silent no-op
(the function returns before reading); otherwise the substituted content is
written back. -/
def updateTaskStatus (plan : Option Str) (taskDesc s : Str) : Option Str :=
  match plan with
  | none => none
  | some content => some (subTaskAll taskDesc (statusChar s) content)

/-! ### `parse_plan` -/

/-- A task record of `parse_plan`: `{phase, task, status, subtasks}`. -/
structure PTask where
  phase : Option Str
  task : Str
  status : Str
  subtasks : List (Str × Str)
deriving DecidableEq, Repr

/-- Python `content.split('\n')`. -/
def splitNl : Str → List Str
  | '\n' :: rest => [] :: splitNl rest
  | c :: rest =>
    match splitNl rest with
    | s :: ss => (c :: s) :: ss
    | [] => [[c]]
  | [] => [[]]

/-- Anchored match of `^-\s*\[([ ~x])\]\s*Task:\s*(.+)` (the task-line
pattern of `parse_plan`, used with `re.match`). -/
def taskLineMatch (line : Str) : Option (Char × Str) :=
  match line with
  | '-' :: t =>
    match t.dropWhile isWs with
    | '[' :: m :: ']' :: l2 =>
      if isMarker m then
        if "Task:".data.isPrefixOf (l2.dropWhile isWs) then
          match wsDotPlus ((l2.dropWhile isWs).drop 5) with
          | some g2 => some (m, g2)
          | none => none
        else none
      else none
    | _ => none
  | _ => none

/-- Anchored match of `^\s{4}-\s*\[([ ~x])\]\s*(.+)` (the subtask-line
pattern of `parse_plan`). -/
def subtaskLineMatch (line : Str) : Option (Char × Str) :=
  match line with
  | a :: b :: c :: d :: '-' :: t =>
    if isWs a && isWs b && isWs c && isWs d then
      match t.dropWhile isWs with
      | '[' :: m :: ']' :: l2 =>
        if isMarker m then
          match wsDotPlus l2 with
          | some g2 => some (m, g2)
          | none => none
        else none
      | _ => none
    else none
  | _ => none

/-- Replace the last element of a list (used for `tasks[-1]`). -/
def modifyLast (f : α → α) : List α → List α
  | [] => []
  | [a] => [f a]
  | a :: rest => a :: modifyLast f rest

/-- One iteration of the `parse_plan` line loop.  The state is the current
phase and the accumulated task list. -/
def planStep (st : Option Str × List PTask) (line : Str) :
    Option Str × List PTask :=
  if "## ".data.isPrefixOf line then (some (stripL (line.drop 3)), st.2)
  else
    match taskLineMatch line with
    | some (m, g2) =>
      (st.1, st.2 ++ [⟨st.1, stripL g2, statusName m, []⟩])
    | none =>
      match subtaskLineMatch line with
      | some (m, g2) =>
        if st.2.isEmpty then st
        else
          (st.1, modifyLast
            (fun tk => { tk with subtasks := tk.subtasks ++ [(stripL g2, statusName m)] }) st.2)
      | none => st

/-- `parse_plan` on the plan text (missing plan files are handled by the
caller via `Option`). -/
def parsePlan (content : Str) : List PTask :=
  ((splitNl content).foldl planStep (none, [])).2

/-! ### Track ids (`get_next_track_id`) and track creation (`create_track`) -/

def digitChar (n : Nat) : Char := Char.ofNat (48 + n)

/-- Fuel-driven helper for `natDigits` (structural recursion, so that the
kernel can evaluate it inside `decide`). -/
def natDigitsAux : Nat → Nat → Str
  | 0, _ => []
  | fuel + 1, n =>
    if n < 10 then [digitChar n]
    else natDigitsAux fuel (n / 10) ++ [digitChar (n % 10)]

/-- Decimal digits of `n`, most significant first (as `str(n)`). -/
def natDigits (n : Nat) : Str := natDigitsAux (n + 1) n

/-- Python `f"{n:03d}"`: decimal digits, left-padded with `0` to width 3. -/
def fmt3 (n : Nat) : Str :=
  List.replicate (3 - (natDigits n).length) '0' ++ natDigits n

/-- The id string `track-NNN`. -/
def idStr (n : Nat) : Str := "track-".data ++ fmt3 n

/-- `get_next_track_id`: `none` models an absent tracks directory, `some l`
the list of names of its immediate subdirectories. -/
def getNextTrackId (dirs : Option (List Str)) : Str :=
  match dirs with
  | none => "track-001".data
  | some l =>
    if l.isEmpty then "track-001".data
    else
      match l.filterMap trackNumSearch with
      | [] => "track-001".data
      | n :: ns => "track-".data ++ fmt3 ((n :: ns).foldl Nat.max 0 + 1)

/-- The store state observed by the registry component: the names of the
subdirectories of `conductor/tracks` (or `none` when that directory does
not exist) and the content of `conductor/tracks.md` (or `none` when the
file does not exist).  The per-track files written by `create_track`
(`metadata.json`, `spec.md`, `plan.md`) are not represented: none of the
verified claims observes them through the registry operations. -/
structure Store where
  dirs : Option (List Str)
  reg : Option Str
deriving DecidableEq

/-- The text appended to `tracks.md` by `add_track_to_registry`. -/
def entryFor (d tid : Str) : Str :=
  "\n---\n\n## [ ] Track: ".data ++ d ++ "\n\n**Folder:** [conductor/tracks/".data
    ++ tid ++ "](conductor/tracks/".data ++ tid ++ ")\n\n".data

/-- The header written by `init_conductor_structure` for `tracks.md`. -/
def hdr0 : Str := "# Tracks\n\nThis file contains all tracks for the project.\n\n".data

/-- The header written by `add_track_to_registry` when `tracks.md` does not
exist yet (note: one trailing newline, not two). -/
def hdrAlt : Str := "# Tracks\n\nThis file contains all tracks for the project.\n".data

/-- `create_track(description, spec, plan)` restricted to the observed
state.  `Except.error ()` models the `FileNotFoundError` raised by
`track_dir.mkdir` when the `conductor/tracks` directory is absent (it is
created without `parents=True`).  Returns the new store and the new id. -/
def createTrack (st : Store) (d : Str) : Except Unit (Store × Str) :=
  match st.dirs with
  | none => .error ()
  | some l =>
    let tid := getNextTrackId (some l)
    let dirs' := if l.contains tid then l else l ++ [tid]
    let reg' :=
      match st.reg with
      | some content => content ++ entryFor d tid
      | none => hdrAlt ++ entryFor d tid
    .ok (⟨some dirs', some reg'⟩, tid)

/-- The store after `init_conductor_structure` on a fresh project: an empty
tracks directory and the default registry header. -/
def initStore : Store := ⟨some [], some hdr0⟩

/-- A sequence of `create_track` calls (later claims quantify over it). -/
def runCreates : Store → List Str → Except Unit Store
  | st, [] => .ok st
  | st, d :: ds =>
    match createTrack st d with
    | .error e => .error e
    | .ok (st', _) => runCreates st' ds

/-! ### Derived definitions used by the claim statements -/

/-- The body of a registry block (everything after its `\n---`), with an
explicit marker character.  `add_track_to_registry` writes exactly
`bodyForM ' '`. -/
def bodyForM (m : Char) (d tid : Str) : Str :=
  "\n\n## [".data ++ [m] ++ "] Track: ".data ++ d
    ++ "\n\n**Folder:** [conductor/tracks/".data ++ tid
    ++ "](conductor/tracks/".data ++ tid ++ ")\n\n".data

/-- A registry block in the canonical shape written by
`add_track_to_registry`, with an arbitrary status marker (the marker is the
only part of a block that `update_track_status` rewrites). -/
def entryForM (m : Char) (d tid : Str) : Str :=
  '\n' :: (dashes ++ bodyForM m d tid)

/-- A canonical registry with two tracks `track-001`, `track-002`. -/
def twoDoc (m1 m2 : Char) (d1 d2 : Str) : Str :=
  hdr0 ++ entryForM m1 d1 "track-001".data ++ entryForM m2 d2 "track-002".data

/-- Descriptions for which the `create`/`parse` round trip is exact: a
nonempty single-line string with no surrounding whitespace that contains
neither the section separator `---` nor the folder-link literal
`[conductor/tracks/` (each exclusion corresponds to a way the round trip
breaks, see the counterexample for C1). -/
def GoodDesc (d : Str) : Prop :=
  d ≠ [] ∧ stripL d = d ∧ '\n' ∉ d ∧
    hasSub dashes d = false ∧ hasSub folderPat d = false

instance (d : Str) : Decidable (GoodDesc d) := by
  unfold GoodDesc; infer_instance

/-- A description for which the `update_track_status` substitution is
literal and can only match at a real heading: a `GoodDesc` that contains no
`##` (so the pattern trigger occurs only at heading starts) and no
backslash (so the replacement f-string `## [c] Track: {description}` is a
literal template). -/
def PlainDesc (d : Str) : Prop :=
  GoodDesc d ∧ hasSub hash2 d = false ∧ '\\' ∉ d

instance (d : Str) : Decidable (PlainDesc d) := by
  unfold PlainDesc; infer_instance

/-- A marker/description pair is well formed when the marker is one of the
three status markers and the description is plain. -/
def GoodPair (p : Char × Str) : Prop := isMarker p.1 = true ∧ PlainDesc p.2

instance (p : Char × Str) : Decidable (GoodPair p) := by
  unfold GoodPair; infer_instance

/-- `track-001, …, track-NNN` for the first `n` tracks (directory listing
after `n` creations). -/
def idsRange (n : Nat) : List Str :=
  (List.range n).map (fun i => idStr (i + 1))

/-- Registry text appended by creations numbered `n, n+1, …`. -/
def entriesFrom : Nat → List Str → Str
  | _, [] => []
  | n, d :: ds => entryFor d (idStr n) ++ entriesFrom (n + 1) ds

/-- The track records that `parse_tracks` is expected to return for
creations numbered `n, n+1, …`. -/
def expectedFrom : Nat → List Str → List Track
  | _, [] => []
  | n, d :: ds =>
    ⟨idStr n, d, "pending".data, "conductor/tracks/".data ++ idStr n⟩
      :: expectedFrom (n + 1) ds

/-- `['\n']` before every block except after the last one (the extra `\n`
that the *next* entry contributes to the previous section). -/
def lead (ds : List Str) : Str := if ds.isEmpty then [] else ['\n']

/-- The sections (in the sense of `content.split("---")`) contributed by
creations numbered `n, n+1, …`. -/
def sectionsAux : Nat → List Str → List Str
  | _, [] => []
  | n, d :: ds => (bodyForM ' ' d (idStr n) ++ lead ds) :: sectionsAux (n + 1) ds

/-- A canonical registry body for marker/description pairs numbered
`n, n+1, …`: the blocks `add_track_to_registry` writes, each with an
arbitrary status marker (the marker is the only part of a block that
`update_track_status` rewrites). -/
def entriesFromM : Nat → List (Char × Str) → Str
  | _, [] => []
  | n, p :: ps => entryForM p.1 p.2 (idStr n) ++ entriesFromM (n + 1) ps

/-- The track records `parse_tracks` returns for a canonical registry with
markers. -/
def expectedFromM : Nat → List (Char × Str) → List Track
  | _, [] => []
  | n, p :: ps =>
    ⟨idStr n, p.2, statusName p.1, "conductor/tracks/".data ++ idStr n⟩
      :: expectedFromM (n + 1) ps

/-- `lead` for marker/description pairs. -/
def leadM (ps : List (Char × Str)) : Str := if ps.isEmpty then [] else ['\n']

/-- The `content.split("---")` sections of a canonical registry with
markers. -/
def sectionsAuxM : Nat → List (Char × Str) → List Str
  | _, [] => []
  | n, p :: ps =>
    (bodyForM p.1 p.2 (idStr n) ++ leadM ps) :: sectionsAuxM (n + 1) ps

/-- The effect of `re.sub` over the heading pattern on the marker list of a
canonical registry: EVERY entry whose description the pattern matches (the
looked-up description `d` followed by anything, i.e. `d` is a prefix of the
entry's description) has its marker set to `c`; all other entries are
unchanged. -/
def markSet (d : Str) (c : Char) (ps : List (Char × Str)) :
    List (Char × Str) :=
  ps.map (fun p => (if List.isPrefixOf d p.2 then c else p.1, p.2))

/-- Projection used to state counterexamples about `runCreates` without an
existential binder. -/
def storeOf (e : Except Unit Store) : Store :=
  match e with
  | .ok st => st
  | .error _ => ⟨none, none⟩

/-- Projection used to chain `update_track_status` calls without an
existential binder (the registry content after a successful call; `none`
if the call raised). -/
def regOf (e : Except Unit (Option Str)) : Option Str :=
  match e with
  | .ok r => r
  | .error _ => none

/-! ### Toolkit: basic facts about the string primitives -/

theorem takeWhile_cons_true {p : Char → Bool} {c : Char} {l : Str} (h : p c = true) :
    List.takeWhile p (c :: l) = c :: List.takeWhile p l := by
  simp [List.takeWhile, h]

theorem takeWhile_cons_false {p : Char → Bool} {c : Char} {l : Str} (h : p c = false) :
    List.takeWhile p (c :: l) = [] := by
  simp [List.takeWhile, h]

theorem dropWhile_cons_true {p : Char → Bool} {c : Char} {l : Str} (h : p c = true) :
    List.dropWhile p (c :: l) = List.dropWhile p l := by
  simp [List.dropWhile, h]

theorem dropWhile_cons_false {p : Char → Bool} {c : Char} {l : Str} (h : p c = false) :
    List.dropWhile p (c :: l) = c :: l := by
  simp [List.dropWhile, h]

theorem takeWhile_append_all {p : Char → Bool} {a b : Str}
    (h : ∀ c ∈ a, p c = true) :
    List.takeWhile p (a ++ b) = a ++ List.takeWhile p b := by
  induction a with
  | nil => simp
  | cons c a ih =>
    have hc : p c = true := h c (by simp)
    simp only [List.cons_append, takeWhile_cons_true hc]
    rw [ih (fun x hx => h x (by simp [hx]))]

theorem length_dropWhile_le (p : Char → Bool) (l : Str) :
    (l.dropWhile p).length ≤ l.length := by
  induction l with
  | nil => simp [List.dropWhile]
  | cons c t ih =>
    by_cases h : p c <;> simp [List.dropWhile, h] <;> omega

theorem stripL_head_not_ws {c : Char} {l : Str}
    (h : stripL (c :: l) = c :: l) : isWs c = false := by
  by_cases hc : isWs c = true
  · exfalso
    have h1 : stripL (c :: l) = ((l.dropWhile isWs).reverse.dropWhile isWs).reverse := by
      simp [stripL, dropWhile_cons_true hc]
    have hlen : (stripL (c :: l)).length ≤ l.length := by
      rw [h1]
      calc ((l.dropWhile isWs).reverse.dropWhile isWs).reverse.length
          = ((l.dropWhile isWs).reverse.dropWhile isWs).length := by
            rw [List.length_reverse]
        _ ≤ (l.dropWhile isWs).reverse.length := length_dropWhile_le _ _
        _ = (l.dropWhile isWs).length := by rw [List.length_reverse]
        _ ≤ l.length := length_dropWhile_le _ _
    rw [h] at hlen
    simp only [List.length_cons] at hlen
    omega
  · simpa using hc

theorem hasSub_iff (pat l : Str) :
    hasSub pat l = true ↔ ∃ i, List.isPrefixOf pat (l.drop i) = true := by
  induction l with
  | nil =>
    constructor
    · intro h; exact ⟨0, h⟩
    · rintro ⟨i, hi⟩
      simp only [List.drop_nil] at hi
      exact hi
  | cons c r ih =>
    constructor
    · intro h
      rcases (Bool.or_eq_true _ _).mp
        (show (List.isPrefixOf pat (c :: r) || hasSub pat r) = true from h) with h1 | h2
      · exact ⟨0, by simpa using h1⟩
      · obtain ⟨i, hi⟩ := ih.mp h2
        exact ⟨i + 1, by simpa using hi⟩
    · rintro ⟨i, hi⟩
      cases i with
      | zero =>
        simp only [List.drop_zero] at hi
        simp [hasSub, hi]
      | succ j =>
        have : hasSub pat r = true := ih.mpr ⟨j, by simpa using hi⟩
        simp [hasSub, this]

theorem hasSub_false_iff (pat l : Str) :
    hasSub pat l = false ↔ ∀ i, List.isPrefixOf pat (l.drop i) = false := by
  constructor
  · intro h i
    by_contra hi
    have : hasSub pat l = true := (hasSub_iff pat l).mpr ⟨i, by simpa using hi⟩
    rw [h] at this; cases this
  · intro h
    by_contra hl
    have : hasSub pat l = true := by
      cases hb : hasSub pat l
      · exact absurd hb hl
      · rfl
    obtain ⟨i, hi⟩ := (hasSub_iff pat l).mp this
    rw [h i] at hi; cases hi

theorem isPre_of_append_left {pat x y : Str}
    (h : List.isPrefixOf pat (x ++ y) = true) (hl : pat.length ≤ x.length) :
    List.isPrefixOf pat x = true := by
  have hp : pat <+: x ++ y := List.isPrefixOf_iff_prefix.mp h
  have ht : pat = (x ++ y).take pat.length := List.prefix_iff_eq_take.mp hp
  rw [List.take_append_eq_append_take] at ht
  have h0 : pat.length - x.length = 0 := by omega
  rw [h0] at ht
  simp only [List.take_zero, List.append_nil] at ht
  exact List.isPrefixOf_iff_prefix.mpr (ht ▸ List.take_prefix _ _)

theorem mem_of_pre_past {x : Str} {c : Char} {y : Str} : ∀ {pat : Str},
    List.isPrefixOf pat (x ++ c :: y) = true → x.length < pat.length → c ∈ pat := by
  induction x with
  | nil =>
    intro pat h hl
    cases pat with
    | nil => simp at hl
    | cons p ps =>
      simp only [List.nil_append, List.isPrefixOf, Bool.and_eq_true, beq_iff_eq] at h
      simp [h.1]
  | cons a x ih =>
    intro pat h hl
    cases pat with
    | nil => simp at hl
    | cons p ps =>
      simp only [List.cons_append, List.isPrefixOf, Bool.and_eq_true, beq_iff_eq] at h
      have : c ∈ ps := ih h.2 (by simp at hl; omega)
      simp [this]

theorem hasSub_cons_false {pat c r} (h : hasSub pat (c :: r) = false) :
    List.isPrefixOf pat (c :: r) = false ∧ hasSub pat r = false := by
  have hh : (List.isPrefixOf pat (c :: r) || hasSub pat r) = false := h
  exact ⟨(Bool.or_eq_false_iff.mp hh).1, (Bool.or_eq_false_iff.mp hh).2⟩

theorem getLast?_eq_of_drop {a : Str} {i : Nat} (h : i < a.length) :
    a.getLast? = (a.drop i).getLast? := by
  conv_lhs => rw [← List.take_append_drop i a]
  rw [List.getLast?_append]
  cases hA : (a.drop i).getLast? with
  | none =>
    rw [List.getLast?_eq_none_iff] at hA
    have := congrArg List.length hA
    simp only [List.length_drop, List.length_nil] at this
    omega
  | some y => rfl

theorem noDash_append {a b : Str} (ha : hasSub dashes a = false)
    (hb : hasSub dashes b = false)
    (hbl : a.getLast? ≠ some '-' ∨ b.head? ≠ some '-') :
    hasSub dashes (a ++ b) = false := by
  rw [hasSub_false_iff]
  intro i
  cases hx : List.isPrefixOf dashes ((a ++ b).drop i) with
  | false => rfl
  | true =>
    exfalso
    rcases le_or_lt a.length i with hle | hlt
    · have hd : (a ++ b).drop i = b.drop (i - a.length) := by
        rw [List.drop_append_eq_append_drop, List.drop_of_length_le hle]; simp
      rw [hd] at hx
      have := (hasSub_false_iff dashes b).mp hb (i - a.length)
      rw [this] at hx; cases hx
    · have hd : (a ++ b).drop i = a.drop i ++ b :=
        List.drop_append_of_le_length (by omega)
      rw [hd] at hx
      have hglast : a.getLast? = (a.drop i).getLast? := getLast?_eq_of_drop hlt
      rcases hr : a.drop i with _ | ⟨x, _ | ⟨y, _ | ⟨z, rr⟩⟩⟩
      · have := congrArg List.length hr
        simp only [List.length_drop, List.length_nil] at this
        omega
      · rw [hr] at hx
        cases b with
        | nil => simp [dashes, List.isPrefixOf] at hx
        | cons b0 bs =>
          simp only [List.cons_append, List.nil_append, dashes,
            List.isPrefixOf, Bool.and_eq_true, beq_iff_eq] at hx
          rcases hbl with hL | hR
          · exact hL (by rw [hglast, hr]; simp [hx.1.symm])
          · exact hR (by simp [hx.2.1.symm])
      · rw [hr] at hx
        cases b with
        | nil => simp [dashes, List.isPrefixOf] at hx
        | cons b0 bs =>
          simp only [List.cons_append, List.nil_append, dashes,
            List.isPrefixOf, Bool.and_eq_true, beq_iff_eq] at hx
          rcases hbl with hL | hR
          · exact hL (by rw [hglast, hr]; simp [hx.2.1.symm])
          · exact hR (by simp [hx.2.2.1.symm])
      · rw [hr] at hx
        have hpre : List.isPrefixOf dashes (x :: y :: z :: rr) = true := by
          simp only [List.cons_append, dashes, List.isPrefixOf,
            Bool.and_eq_true, beq_iff_eq] at hx ⊢
          exact ⟨hx.1, hx.2.1, hx.2.2.1, trivial⟩
        have := (hasSub_false_iff dashes a).mp ha i
        rw [hr] at this
        rw [this] at hpre; cases hpre

theorem splitDashesF_irrel : ∀ (f : Nat) (l : Str) (g : Nat),
    l.length < f → l.length < g → splitDashesF f l = splitDashesF g l := by
  intro f
  induction f with
  | zero => intro l g hf _; omega
  | succ f ihf =>
    intro l g hf hg
    cases g with
    | zero => omega
    | succ g =>
      cases l with
      | nil => rfl
      | cons c rest =>
        simp only [splitDashesF]
        simp only [List.length_cons] at hf hg
        by_cases hp : List.isPrefixOf dashes (c :: rest) = true
        · rw [if_pos hp, if_pos hp]
          rw [ihf (rest.drop 2) g
            (by simp only [List.length_drop]; omega)
            (by simp only [List.length_drop]; omega)]
        · rw [if_neg hp, if_neg hp]
          rw [ihf rest g (by omega) (by omega)]

theorem splitDashes_cons_eq (c : Char) (rest : Str) :
    splitDashes (c :: rest) =
      if List.isPrefixOf dashes (c :: rest) then [] :: splitDashes (rest.drop 2)
      else
        match splitDashes rest with
        | s :: ss => (c :: s) :: ss
        | [] => [[c]] := by
  show splitDashesF ((c :: rest).length + 1) (c :: rest) = _
  simp only [List.length_cons, splitDashesF]
  by_cases hp : List.isPrefixOf dashes (c :: rest) = true
  · rw [if_pos hp, if_pos hp]
    rw [splitDashesF_irrel (rest.length + 1) (rest.drop 2) ((rest.drop 2).length + 1)
      (by simp only [List.length_drop]; omega) (by omega)]
    rfl
  · rw [if_neg hp, if_neg hp]
    rfl

theorem splitDashes_ne_nil (l : Str) : splitDashes l ≠ [] := by
  cases l with
  | nil => intro h; cases h
  | cons c rest =>
    rw [splitDashes_cons_eq]
    split
    · simp
    · cases hsp : splitDashes rest <;> simp [hsp]

theorem splitDashes_cons_pos {c : Char} {rest : Str}
    (h : List.isPrefixOf dashes (c :: rest) = true) :
    splitDashes (c :: rest) = [] :: splitDashes (rest.drop 2) := by
  rw [splitDashes_cons_eq, if_pos h]

theorem splitDashes_cons_neg {c : Char} {rest s : Str} {ss : List Str}
    (h : List.isPrefixOf dashes (c :: rest) = false)
    (hs : splitDashes rest = s :: ss) :
    splitDashes (c :: rest) = (c :: s) :: ss := by
  rw [splitDashes_cons_eq, if_neg]
  · rw [hs]
  · intro hc; rw [h] at hc; cases hc

theorem splitDashes_noDash {A : Str} (hA : hasSub dashes A = false) :
    splitDashes A = [A] := by
  induction A with
  | nil => rfl
  | cons c r ih =>
    obtain ⟨h1, h2⟩ := hasSub_cons_false hA
    rw [splitDashes_cons_neg h1 (ih h2)]

theorem splitDashes_append {B s : Str} {ss : List Str}
    (hB : splitDashes B = s :: ss) : ∀ {A : Str},
    hasSub dashes A = false → A.getLast? ≠ some '-' →
    splitDashes (A ++ B) = (A ++ s) :: ss := by
  intro A
  induction A with
  | nil => intro _ _; simpa using hB
  | cons c A ih =>
    intro hA hA2
    obtain ⟨h1, h2⟩ := hasSub_cons_false hA
    have hnp : List.isPrefixOf dashes ((c :: A) ++ B) = false := by
      cases hx : List.isPrefixOf dashes ((c :: A) ++ B) with
      | false => rfl
      | true =>
        exfalso
        rcases A with _ | ⟨a1, _ | ⟨a2, A'⟩⟩
        · simp only [List.cons_append, List.nil_append, dashes, List.isPrefixOf,
            Bool.and_eq_true, beq_iff_eq] at hx
          exact hA2 (by simp [hx.1.symm])
        · simp only [List.cons_append, dashes, List.isPrefixOf,
            Bool.and_eq_true, beq_iff_eq] at hx
          exact hA2 (by simp [hx.2.1.symm])
        · have : List.isPrefixOf dashes (c :: a1 :: a2 :: A') = true := by
            simp only [List.cons_append, dashes, List.isPrefixOf,
              Bool.and_eq_true, beq_iff_eq] at hx ⊢
            exact ⟨hx.1, hx.2.1, hx.2.2.1, trivial⟩
          rw [h1] at this; cases this
    have hA2' : A.getLast? ≠ some '-' := by
      cases A with
      | nil => simp
      | cons a A' => rw [← List.getLast?_cons_cons]; exact hA2
    rw [List.cons_append] at hnp ⊢
    rw [splitDashes_cons_neg hnp (ih h2 hA2')]
    simp

theorem scanFirst_cons_none {α} {f : Str → Option α} {c : Char} {l : Str}
    (h : f (c :: l) = none) : scanFirst f (c :: l) = scanFirst f l := by
  simp [scanFirst, h]

theorem scanFirst_cons_some {α} {f : Str → Option α} {c : Char} {l : Str} {x : α}
    (h : f (c :: l) = some x) : scanFirst f (c :: l) = some x := by
  simp [scanFirst, h]

theorem folderAt_of_not_pre {s : Str}
    (h : List.isPrefixOf folderPat s = false) : folderAt s = none := by
  simp [folderAt, h]

theorem folderSearch_skip_noSub {w : Str} : ∀ {d : Str},
    hasSub folderPat d = false →
    folderSearch (d ++ '\n' :: w) = folderSearch ('\n' :: w) := by
  intro d
  induction d with
  | nil => intro _; rfl
  | cons c d ih =>
    intro hd
    obtain ⟨h1, h2⟩ := hasSub_cons_false hd
    have hnp : List.isPrefixOf folderPat ((c :: d) ++ '\n' :: w) = false := by
      cases hx : List.isPrefixOf folderPat ((c :: d) ++ '\n' :: w) with
      | false => rfl
      | true =>
        exfalso
        rcases le_or_lt folderPat.length (c :: d).length with hle | hlt
        · have := isPre_of_append_left hx hle
          rw [h1] at this; cases this
        · have hm : '\n' ∈ folderPat := mem_of_pre_past hx hlt
          revert hm; decide
    rw [List.cons_append] at hnp ⊢
    rw [show folderSearch (c :: (d ++ '\n' :: w)) = scanFirst folderAt _ from rfl,
      scanFirst_cons_none (folderAt_of_not_pre hnp)]
    exact ih h2

theorem folderAt_exact {tid z : Str} (h : ∀ a ∈ tid, (a != ']') = true)
    (hne : tid ≠ []) :
    folderAt (folderPat ++ (tid ++ ']' :: z)) = some tid := by
  have hpre : List.isPrefixOf folderPat (folderPat ++ (tid ++ ']' :: z)) = true :=
    List.isPrefixOf_iff_prefix.mpr (List.prefix_append _ _)
  have hdrop : (folderPat ++ (tid ++ ']' :: z)).drop 18 = tid ++ ']' :: z := by
    have : folderPat.length = 18 := by decide
    rw [← this, List.drop_left]
  have hg : (tid ++ ']' :: z).takeWhile (fun c => c != ']') = tid := by
    rw [takeWhile_append_all h, takeWhile_cons_false (by decide)]
    simp
  rw [folderAt, if_pos (by rw [hpre])]
  simp only [hdrop, hg]
  rw [if_neg (by simp [List.length_eq_zero]; exact hne)]
  rw [if_pos (by simp)]

theorem headingAt_nl (l : Str) : headingAt ('\n' :: l) = none := rfl

theorem wsDotPlus_sp {c : Char} {d' w : Str} (hc : isWs c = false)
    (hnl : '\n' ∉ c :: d') :
    wsDotPlus (' ' :: ((c :: d') ++ '\n' :: w)) = some (c :: d') := by
  have ht : (' ' :: ((c :: d') ++ '\n' :: w)).takeWhile isWs = [' '] := by
    rw [List.cons_append, takeWhile_cons_true (by decide), takeWhile_cons_false hc]
  rw [wsDotPlus]
  simp only [ht]
  rw [if_pos (by simp)]
  have hdrop : (' ' :: ((c :: d') ++ '\n' :: w)).drop 1 = (c :: d') ++ '\n' :: w := rfl
  rw [show ([' '] : Str).length = 1 from rfl, hdrop]
  rw [takeWhile_append_all (fun a ha => by
    have : a ≠ '\n' := fun he => hnl (he ▸ ha)
    simpa using this)]
  rw [takeWhile_cons_false (by decide)]
  simp

theorem headingAfterHashes_canon {m : Char} (hm : isMarker m = true) {c : Char}
    {d' w : Str} (hc : isWs c = false) (hnl : '\n' ∉ c :: d') :
    headingAfterHashes (' ' :: '[' :: m :: ']' :: ' ' :: 'T' :: 'r' :: 'a' ::
      'c' :: 'k' :: ':' :: ' ' :: ((c :: d') ++ '\n' :: w)) = some (m, c :: d') := by
  have hdw : (' ' :: '[' :: m :: ']' :: ' ' :: 'T' :: 'r' :: 'a' :: 'c' :: 'k' ::
      ':' :: ' ' :: ((c :: d') ++ '\n' :: w)).dropWhile isWs
      = '[' :: m :: ']' :: (' ' :: 'T' :: 'r' :: 'a' :: 'c' :: 'k' :: ':' :: ' ' ::
        ((c :: d') ++ '\n' :: w)) := by
    rw [dropWhile_cons_true (by decide), dropWhile_cons_false (by decide)]
  rw [headingAfterHashes]
  simp only [hdw]
  rw [if_pos (by rw [hm])]
  have hdw2 : (' ' :: 'T' :: 'r' :: 'a' :: 'c' :: 'k' :: ':' :: ' ' ::
      ((c :: d') ++ '\n' :: w)).dropWhile isWs
      = 'T' :: 'r' :: 'a' :: 'c' :: 'k' :: ':' :: ' ' :: ((c :: d') ++ '\n' :: w) := by
    rw [dropWhile_cons_true (by decide), dropWhile_cons_false (by decide)]
  simp only [hdw2]
  rw [if_pos (by rfl)]
  have hdrop : ('T' :: 'r' :: 'a' :: 'c' :: 'k' :: ':' :: ' ' ::
      ((c :: d') ++ '\n' :: w)).drop 6 = ' ' :: ((c :: d') ++ '\n' :: w) := rfl
  rw [hdrop, wsDotPlus_sp hc hnl]

theorem natDigitsAux_irrel : ∀ n f g : Nat, n < f → n < g →
    natDigitsAux f n = natDigitsAux g n := by
  intro n
  induction n using Nat.strong_induction_on with
  | _ n ih =>
    intro f g hf hg
    cases f with
    | zero => omega
    | succ f =>
      cases g with
      | zero => omega
      | succ g =>
        rw [natDigitsAux, natDigitsAux]
        by_cases h10 : n < 10
        · rw [if_pos h10, if_pos h10]
        · rw [if_neg h10, if_neg h10]
          have hdiv : n / 10 < n := Nat.div_lt_self (by omega) (by omega)
          rw [ih (n / 10) hdiv f g (by omega) (by omega)]

/-- The usual recursive unfolding of `natDigits`. -/
theorem natDigits_eq (n : Nat) : natDigits n =
    if n < 10 then [digitChar n]
    else natDigits (n / 10) ++ [digitChar (n % 10)] := by
  show natDigitsAux (n + 1) n = _
  rw [natDigitsAux]
  by_cases h10 : n < 10
  · rw [if_pos h10, if_pos h10]
  · rw [if_neg h10, if_neg h10]
    have hdiv : n / 10 < n := Nat.div_lt_self (by omega) (by omega)
    rw [natDigitsAux_irrel (n / 10) n (n / 10 + 1) (by omega) (by omega)]
    rfl

theorem natDigits_all_digit : ∀ n : Nat, ∀ c ∈ natDigits n, Char.isDigit c = true := by
  intro n
  induction n using Nat.strong_induction_on with
  | _ n ih =>
    rw [natDigits_eq]
    split
    · intro c hc
      simp only [List.mem_singleton] at hc
      subst hc
      next h => interval_cases n <;> decide
    · intro c hc
      rcases List.mem_append.mp hc with h1 | h2
      · next h =>
        exact ih (n / 10) (Nat.div_lt_self (by omega) (by omega)) c h1
      · simp only [List.mem_singleton] at h2
        subst h2
        have hlt : n % 10 < 10 := Nat.mod_lt _ (by omega)
        set r := n % 10 with hr
        interval_cases r <;> decide

theorem natDigits_ne_nil (n : Nat) : natDigits n ≠ [] := by
  rw [natDigits_eq]; split <;> simp

theorem digit_is_not {c : Char} (h : Char.isDigit c = true) :
    c ≠ ']' ∧ c ≠ '-' ∧ c ≠ '\n' ∧ c ≠ '[' ∧ c ≠ '#' ∧ isWs c = false := by
  refine ⟨?_, ?_, ?_, ?_, ?_, ?_⟩
  · intro he; subst he; exact absurd h (by decide)
  · intro he; subst he; exact absurd h (by decide)
  · intro he; subst he; exact absurd h (by decide)
  · intro he; subst he; exact absurd h (by decide)
  · intro he; subst he; exact absurd h (by decide)
  · cases hw : isWs c with
    | false => rfl
    | true =>
      exfalso
      simp only [isWs, Bool.or_eq_true, decide_eq_true_eq] at hw
      rcases hw with ((((h1 | h1) | h1) | h1) | h1) | h1 <;>
        (subst h1; exact absurd h (by decide))

theorem fmt3_all_digit (n : Nat) : ∀ c ∈ fmt3 n, Char.isDigit c = true := by
  intro c hc
  rcases List.mem_append.mp hc with h1 | h2
  · have := List.eq_of_mem_replicate h1
    subst this; decide
  · exact natDigits_all_digit n c h2

theorem fmt3_ne_nil (n : Nat) : fmt3 n ≠ [] := by
  intro h
  rcases List.append_eq_nil.mp h with ⟨_, h2⟩
  exact natDigits_ne_nil n h2

theorem idStr_chars {n : Nat} {c : Char} (h : c ∈ idStr n) :
    c ∈ ("track-".data : Str) ∨ Char.isDigit c = true := by
  rcases List.mem_append.mp h with h1 | h2
  · exact Or.inl h1
  · exact Or.inr (fmt3_all_digit n c h2)

theorem idStr_no_rb {n : Nat} : ∀ c ∈ idStr n, (c != ']') = true := by
  intro c hc
  rcases idStr_chars hc with h1 | h2
  · rw [show ("track-".data : Str) = ['t', 'r', 'a', 'c', 'k', '-'] from by decide] at h1
    simp only [List.mem_cons, List.not_mem_nil, or_false] at h1
    rcases h1 with h1 | h1 | h1 | h1 | h1 | h1 <;> (subst h1; decide)
  · simp [(digit_is_not h2).1]

theorem idStr_ne_nil (n : Nat) : idStr n ≠ [] := by
  simp [idStr]

theorem noDash_of_all_digit {l : Str} (h : ∀ c ∈ l, Char.isDigit c = true) :
    hasSub dashes l = false := by
  induction l with
  | nil => rfl
  | cons c r ih =>
    have hc : c ≠ '-' := (digit_is_not (h c (by simp))).2.1
    have hp : List.isPrefixOf dashes (c :: r) = false := by
      cases hx : List.isPrefixOf dashes (c :: r) with
      | false => rfl
      | true =>
        exfalso
        simp only [dashes, List.isPrefixOf, Bool.and_eq_true, beq_iff_eq] at hx
        exact hc hx.1.symm
    have hr := ih (fun x hx => h x (by simp [hx]))
    simp [hasSub, hp, hr]

theorem fmt3_head_digit (n : Nat) :
    ∀ c, (fmt3 n).head? = some c → Char.isDigit c = true := by
  intro c hc
  exact fmt3_all_digit n c (List.mem_of_mem_head? (by simp [hc]))

theorem noDash_idStr (n : Nat) : hasSub dashes (idStr n) = false := by
  refine noDash_append (by decide) ?_ ?_
  · exact noDash_of_all_digit (fmt3_all_digit n)
  · refine Or.inr ?_
    intro hh
    cases hf : (fmt3 n).head? with
    | none =>
      rw [hf] at hh; cases hh
    | some c =>
      rw [hf] at hh
      have h1 := fmt3_head_digit n c hf
      have h2 := (digit_is_not h1).2.1
      simp only [Option.some.injEq] at hh
      exact h2 hh

theorem foldl_digits : ∀ n a : Nat,
    List.foldl (fun a c => a * 10 + (c.toNat - 48)) a (natDigits n)
      = a * 10 ^ (natDigits n).length + n := by
  intro n
  induction n using Nat.strong_induction_on with
  | _ n ih =>
    intro a
    rw [natDigits_eq]
    split
    · next h =>
      have hdc : (digitChar n).toNat - 48 = n := by interval_cases n <;> decide
      simp only [List.foldl, List.length_singleton, pow_one, hdc]
    · next h =>
      have hdiv : n / 10 < n := Nat.div_lt_self (by omega) (by omega)
      rw [List.foldl_append, ih (n / 10) hdiv a]
      have hmod : n % 10 < 10 := Nat.mod_lt _ (by omega)
      have hdc : (digitChar (n % 10)).toNat - 48 = n % 10 := by
        set r := n % 10 with hr
        interval_cases r <;> decide
      simp only [List.foldl, List.length_append, List.length_singleton, hdc]
      rw [pow_succ, ← mul_assoc]
      have hdm := Nat.div_add_mod n 10
      omega

theorem toNatL_zeros_digits (k n : Nat) :
    toNatL (List.replicate k '0' ++ natDigits n) = n := by
  unfold toNatL
  rw [List.foldl_append]
  have hz : List.foldl (fun a c => a * 10 + (c.toNat - 48)) 0
      (List.replicate k '0') = 0 := by
    induction k with
    | zero => rfl
    | succ j ihk => simpa [List.replicate_succ, List.foldl] using ihk
  rw [hz, foldl_digits n 0]
  simp

theorem trackNumAt_idStr (n : Nat) : trackNumAt (idStr n) = some n := by
  have hpre : List.isPrefixOf "track-".data (idStr n) = true := by
    unfold idStr
    exact List.isPrefixOf_iff_prefix.mpr (List.prefix_append _ _)
  have hdrop : (idStr n).drop 6 = fmt3 n := by
    unfold idStr
    have h6 : ("track-".data : Str).length = 6 := by decide
    rw [← h6, List.drop_left]
  rw [trackNumAt, if_pos (by rw [hpre])]
  simp only [hdrop]
  rw [List.takeWhile_eq_self_iff.mpr (fmt3_all_digit n)]
  rw [if_neg (by simpa [List.isEmpty_iff] using fmt3_ne_nil n)]
  exact congrArg some (toNatL_zeros_digits (3 - (natDigits n).length) n)

theorem trackNumSearch_idStr (n : Nat) : trackNumSearch (idStr n) = some n := by
  have hcons : idStr n = 't' :: ("rack-".data ++ fmt3 n) := by
    unfold idStr
    rw [show ("track-".data : Str) = 't' :: "rack-".data from by decide]
    rfl
  unfold trackNumSearch
  rw [hcons]
  rw [scanFirst_cons_some (x := n)]
  rw [← hcons]
  exact trackNumAt_idStr n

theorem foldl_max_map_range (n : Nat) :
    List.foldl Nat.max 0 ((List.range n).map (fun i => i + 1)) = n := by
  induction n with
  | zero => rfl
  | succ k ih =>
    rw [List.range_succ, List.map_append, List.foldl_append, ih]
    simp [Nat.max_def]

theorem filterMap_idsRange (n : Nat) :
    (idsRange n).filterMap trackNumSearch = (List.range n).map (fun i => i + 1) := by
  unfold idsRange
  rw [List.filterMap_map]
  induction n with
  | zero => rfl
  | succ k ih =>
    rw [List.range_succ, List.filterMap_append, List.map_append, ih]
    simp [Function.comp, trackNumSearch_idStr]

theorem idsRange_succ (n : Nat) :
    idsRange (n + 1) = idsRange n ++ [idStr (n + 1)] := by
  unfold idsRange
  rw [List.range_succ, List.map_append]
  rfl

theorem getNextTrackId_range (n : Nat) :
    getNextTrackId (some (idsRange n)) = idStr (n + 1) := by
  cases n with
  | zero =>
    show getNextTrackId (some []) = idStr 1
    rw [getNextTrackId]
    simp only [List.isEmpty_nil, if_true]
    decide
  | succ k =>
    rw [getNextTrackId]
    have hne : (idsRange (k + 1)).isEmpty = false := by
      rw [List.isEmpty_eq_false_iff_exists_mem]
      exact ⟨idStr 1, by unfold idsRange; simp; exact ⟨0, by omega, rfl⟩⟩
    rw [if_neg (by rw [hne]; exact Bool.false_ne_true)]
    have hfm := filterMap_idsRange (k + 1)
    have hshape : (List.range (k + 1)).map (fun i => i + 1)
        = 1 :: (List.range k).map (fun i => i + 1 + 1) := by
      rw [List.range_succ_eq_map]
      simp [Function.comp]
    rw [hfm, hshape]
    have hmax : List.foldl Nat.max 0
        (1 :: (List.range k).map (fun i => i + 1 + 1)) = k + 1 := by
      rw [← hshape, foldl_max_map_range]
    show "track-".data ++ fmt3 (List.foldl Nat.max 0
      (1 :: (List.range k).map (fun i => i + 1 + 1)) + 1) = idStr (k + 1 + 1)
    rw [hmax]
    rfl

theorem idStr_inj {a b : Nat} (h : idStr a = idStr b) : a = b := by
  have ha := trackNumSearch_idStr a
  rw [h, trackNumSearch_idStr b] at ha
  exact (Option.some.injEq _ _ ▸ ha).symm

theorem idStr_not_mem_idsRange (n : Nat) : idStr (n + 1) ∉ idsRange n := by
  intro hmem
  unfold idsRange at hmem
  obtain ⟨i, hi, he⟩ := List.mem_map.mp hmem
  have := idStr_inj he
  simp at hi
  omega

theorem contains_idsRange_false (n : Nat) :
    (idsRange n).contains (idStr (n + 1)) = false := by
  cases hc : (idsRange n).contains (idStr (n + 1)) with
  | false => rfl
  | true =>
    exfalso
    have hmem : idStr (n + 1) ∈ idsRange n := by
      have : (idsRange n).elem (idStr (n + 1)) = true := hc
      exact (List.elem_iff).mp this
    exact idStr_not_mem_idsRange n hmem

theorem runCreates_general : ∀ (ds : List Str) (n : Nat) (R : Str),
    runCreates ⟨some (idsRange n), some R⟩ ds
      = .ok ⟨some (idsRange (n + ds.length)), some (R ++ entriesFrom (n + 1) ds)⟩ := by
  intro ds
  induction ds with
  | nil =>
    intro n R
    simp [runCreates, entriesFrom]
  | cons d ds ih =>
    intro n R
    rw [runCreates]
    have hcreate : createTrack ⟨some (idsRange n), some R⟩ d
        = .ok (⟨some (idsRange (n + 1)), some (R ++ entryFor d (idStr (n + 1)))⟩,
            idStr (n + 1)) := by
      rw [createTrack]
      simp only [getNextTrackId_range n, contains_idsRange_false n, if_neg,
        Bool.false_eq_true, not_false_eq_true, idsRange_succ]
    rw [hcreate]
    show runCreates ⟨some (idsRange (n + 1)), some (R ++ entryFor d (idStr (n + 1)))⟩ ds = _
    rw [ih (n + 1) (R ++ entryFor d (idStr (n + 1)))]
    have hlen : n + 1 + ds.length = n + (d :: ds).length := by simp; omega
    rw [hlen]
    have hent : (R ++ entryFor d (idStr (n + 1))) ++ entriesFrom (n + 1 + 1) ds
        = R ++ entriesFrom (n + 1) (d :: ds) := by
      rw [entriesFrom, List.append_assoc]
    rw [hent]

theorem entryFor_decomp (d tid : Str) :
    entryFor d tid = '\n' :: (dashes ++ bodyForM ' ' d tid) := by
  unfold entryFor bodyForM
  rw [show ("\n---\n\n## [ ] Track: ".data : Str)
      = '\n' :: (dashes ++ ("\n\n## [".data ++ [' '] ++ "] Track: ".data)) from by decide]
  simp [List.append_assoc]

theorem bodyForM_cons (m : Char) (d tid : Str) :
    bodyForM m d tid = '\n' :: '\n' :: '#' :: '#' :: ' ' :: '[' :: m :: ']' :: ' ' ::
      'T' :: 'r' :: 'a' :: 'c' :: 'k' :: ':' :: ' ' ::
      (d ++ '\n' :: ("\n**Folder:** ".data ++ (folderPat ++
        (tid ++ ']' :: ("(conductor/tracks/".data ++ tid ++ [')', '\n', '\n']))))) := by
  unfold bodyForM
  rw [show ("\n\n## [".data : Str) = ['\n', '\n', '#', '#', ' ', '['] from by decide]
  rw [show ("] Track: ".data : Str) = [']', ' ', 'T', 'r', 'a', 'c', 'k', ':', ' '] from by decide]
  rw [show ("\n\n**Folder:** [conductor/tracks/".data : Str)
      = '\n' :: ('\n' :: "**Folder:** ".data) ++ folderPat from by decide]
  rw [show ("](conductor/tracks/".data : Str) = ']' :: "(conductor/tracks/".data from by decide]
  rw [show (")\n\n".data : Str) = [')', '\n', '\n'] from by decide]
  rw [show ('\n' :: ('\n' :: "**Folder:** ".data) : Str)
      = '\n' :: ("\n**Folder:** ".data : Str) from by decide]
  simp [List.append_assoc]

theorem getLast_bodyForM (m : Char) (d tid : Str) :
    (bodyForM m d tid).getLast? = some '\n' := by
  unfold bodyForM
  rw [List.getLast?_append]
  rw [show ((")\n\n".data : Str)).getLast? = some '\n' from by decide]
  rfl

theorem idStr_cons (n : Nat) : idStr n = 't' :: ("rack-".data ++ fmt3 n) := by
  unfold idStr
  rw [show ("track-".data : Str) = 't' :: "rack-".data from by decide]
  rfl

theorem noDash_fmt3 (n : Nat) : hasSub dashes (fmt3 n) = false :=
  noDash_of_all_digit (fmt3_all_digit n)

theorem head_cons_append_ne {c e : Char} (h : c ≠ e) (l x : Str) :
    ((c :: l) ++ x).head? ≠ some e := by
  simp only [List.cons_append, List.head?_cons, ne_eq, Option.some.injEq]
  exact h

theorem noDash_body (n : Nat) {d : Str} (hd : hasSub dashes d = false) :
    hasSub dashes (bodyForM ' ' d (idStr n)) = false := by
  have htid : hasSub dashes (idStr n) = false := noDash_idStr n
  have htid_head : ∀ z : Str, ((idStr n ++ z).head? ≠ some '-') := by
    intro z
    rw [idStr_cons]
    exact head_cons_append_ne (by decide) _ _
  have h1 : hasSub dashes (idStr n ++ ")\n\n".data) = false :=
    noDash_append htid (by decide) (Or.inr (by decide))
  have h2 : hasSub dashes ("](conductor/tracks/".data ++ (idStr n ++ ")\n\n".data))
      = false :=
    noDash_append (by decide) h1 (Or.inr (htid_head _))
  have h3 : hasSub dashes (idStr n ++ ("](conductor/tracks/".data
      ++ (idStr n ++ ")\n\n".data))) = false := by
    refine noDash_append htid h2 (Or.inr ?_)
    rw [show ("](conductor/tracks/".data : Str) = ']' :: "(conductor/tracks/".data
      from by decide]
    exact head_cons_append_ne (by decide) _ _
  have h4 : hasSub dashes ("\n\n**Folder:** [conductor/tracks/".data
      ++ (idStr n ++ ("](conductor/tracks/".data ++ (idStr n ++ ")\n\n".data))))
      = false :=
    noDash_append (by decide) h3 (Or.inr (htid_head _))
  have h5 : hasSub dashes (d ++ ("\n\n**Folder:** [conductor/tracks/".data
      ++ (idStr n ++ ("](conductor/tracks/".data ++ (idStr n ++ ")\n\n".data)))))
      = false := by
    refine noDash_append hd h4 (Or.inr ?_)
    rw [show ("\n\n**Folder:** [conductor/tracks/".data : Str)
      = '\n' :: "\n**Folder:** [conductor/tracks/".data from by decide]
    exact head_cons_append_ne (by decide) _ _
  have h6 : hasSub dashes ("] Track: ".data ++ (d
      ++ ("\n\n**Folder:** [conductor/tracks/".data
      ++ (idStr n ++ ("](conductor/tracks/".data ++ (idStr n ++ ")\n\n".data))))))
      = false :=
    noDash_append (by decide) h5 (Or.inl (by decide))
  have h7 : hasSub dashes (([' '] : Str) ++ ("] Track: ".data ++ (d
      ++ ("\n\n**Folder:** [conductor/tracks/".data
      ++ (idStr n ++ ("](conductor/tracks/".data ++ (idStr n ++ ")\n\n".data)))))))
      = false :=
    noDash_append (by decide) h6 (Or.inl (by decide))
  have h8 : hasSub dashes ("\n\n## [".data ++ (([' '] : Str) ++ ("] Track: ".data ++ (d
      ++ ("\n\n**Folder:** [conductor/tracks/".data
      ++ (idStr n ++ ("](conductor/tracks/".data ++ (idStr n ++ ")\n\n".data))))))))
      = false :=
    noDash_append (by decide) h7 (Or.inl (by decide))
  unfold bodyForM
  simpa [List.append_assoc] using h8

theorem headingSearch_canon {m : Char} (hm : isMarker m = true) {c : Char}
    {d' w : Str} (hc : isWs c = false) (hnl : '\n' ∉ c :: d') :
    headingSearch ('\n' :: '\n' :: '#' :: '#' :: ' ' :: '[' :: m :: ']' :: ' ' ::
      'T' :: 'r' :: 'a' :: 'c' :: 'k' :: ':' :: ' ' :: ((c :: d') ++ '\n' :: w))
      = some (m, c :: d') := by
  unfold headingSearch
  rw [scanFirst_cons_none (headingAt_nl _), scanFirst_cons_none (headingAt_nl _)]
  exact scanFirst_cons_some (headingAfterHashes_canon hm hc hnl)

theorem folderSearch_canon (n : Nat) {d z : Str}
    (hfp : hasSub folderPat d = false) :
    folderSearch ('\n' :: '\n' :: '#' :: '#' :: ' ' :: '[' :: ' ' :: ']' :: ' ' ::
      'T' :: 'r' :: 'a' :: 'c' :: 'k' :: ':' :: ' ' ::
      (d ++ '\n' :: ("\n**Folder:** ".data ++ (folderPat ++ (idStr n ++ ']' :: z)))))
      = some (idStr n) := by
  have h1 : folderSearch ('\n' :: '\n' :: '#' :: '#' :: ' ' :: '[' :: ' ' :: ']' ::
      ' ' :: 'T' :: 'r' :: 'a' :: 'c' :: 'k' :: ':' :: ' ' ::
      (d ++ '\n' :: ("\n**Folder:** ".data ++ (folderPat ++ (idStr n ++ ']' :: z)))))
      = folderSearch
        (d ++ '\n' :: ("\n**Folder:** ".data ++ (folderPat ++ (idStr n ++ ']' :: z)))) :=
    rfl
  rw [h1, folderSearch_skip_noSub hfp]
  have h2 : folderSearch ('\n' ::
      ("\n**Folder:** ".data ++ (folderPat ++ (idStr n ++ ']' :: z))))
      = folderSearch (folderPat ++ (idStr n ++ ']' :: z)) := rfl
  rw [h2]
  have h3 : folderPat ++ (idStr n ++ ']' :: z)
      = '[' :: ("conductor/tracks/".data ++ (idStr n ++ ']' :: z)) := rfl
  rw [h3]
  apply scanFirst_cons_some
  rw [← h3]
  exact folderAt_exact idStr_no_rb (idStr_ne_nil n)

theorem sectionTrack_body {d : Str} (n : Nat) (t : Str) (hd : GoodDesc d) :
    sectionTrack (bodyForM ' ' d (idStr n) ++ t)
      = some ⟨idStr n, d, "pending".data, "conductor/tracks/".data ++ idStr n⟩ := by
  obtain ⟨hne, hst, hnl, hdash, hfp⟩ := hd
  obtain ⟨c, d', rfl⟩ : ∃ c d', d = c :: d' := by
    cases d with
    | nil => exact absurd rfl hne
    | cons c d' => exact ⟨c, d', rfl⟩
  have hc : isWs c = false := stripL_head_not_ws hst
  have hbody : bodyForM ' ' (c :: d') (idStr n) ++ t
      = '\n' :: '\n' :: '#' :: '#' :: ' ' :: '[' :: ' ' :: ']' :: ' ' ::
        'T' :: 'r' :: 'a' :: 'c' :: 'k' :: ':' :: ' ' ::
        ((c :: d') ++ '\n' :: ("\n**Folder:** ".data ++ (folderPat ++
          (idStr n ++ ']' :: ("(conductor/tracks/".data ++ idStr n
            ++ [')', '\n', '\n'] ++ t))))) := by
    rw [bodyForM_cons]
    simp [List.append_assoc]
  rw [hbody]
  unfold sectionTrack
  rw [headingSearch_canon (by decide) hc hnl]
  rw [folderSearch_canon n hfp]
  show some (Track.mk (idStr n) (stripL (c :: d')) (statusName ' ')
      ("conductor/tracks/".data ++ idStr n))
    = some (Track.mk (idStr n) (c :: d') "pending".data
      ("conductor/tracks/".data ++ idStr n))
  rw [hst]
  rfl

theorem splitDashes_entry (Z : Str) :
    splitDashes (dashes ++ Z) = [] :: splitDashes Z := by
  have : List.isPrefixOf dashes (dashes ++ Z) = true :=
    List.isPrefixOf_iff_prefix.mpr (List.prefix_append _ _)
  rw [show (dashes ++ Z : Str) = '-' :: '-' :: '-' :: Z from rfl]
  rw [splitDashes_cons_pos (by exact this)]
  rfl

theorem splitSections : ∀ (ds : List Str) (n : Nat) (A : Str),
    hasSub dashes A = false → A.getLast? ≠ some '-' →
    (∀ d ∈ ds, hasSub dashes d = false) →
    splitDashes (A ++ entriesFrom n ds) = (A ++ lead ds) :: sectionsAux n ds := by
  intro ds
  induction ds with
  | nil =>
    intro n A hA _ _
    rw [entriesFrom, lead, sectionsAux]
    simp only [List.isEmpty_nil, if_true, List.append_nil]
    exact splitDashes_noDash hA
  | cons d ds ih =>
    intro n A hA hA2 hgood
    have hgd : hasSub dashes d = false := hgood d (by simp)
    have hrest : ∀ x ∈ ds, hasSub dashes x = false :=
      fun x hx => hgood x (by simp [hx])
    have hbody := ih (n + 1) (bodyForM ' ' d (idStr n))
      (noDash_body n hgd) (by rw [getLast_bodyForM]; simp) hrest
    have hsplitZ : splitDashes (dashes ++ (bodyForM ' ' d (idStr n)
        ++ entriesFrom (n + 1) ds))
        = [] :: ((bodyForM ' ' d (idStr n) ++ lead ds) :: sectionsAux (n + 1) ds) := by
      rw [splitDashes_entry, hbody]
    have hA' : hasSub dashes (A ++ ['\n']) = false :=
      noDash_append hA (by decide) (Or.inr (by decide))
    have hA2' : (A ++ ['\n']).getLast? ≠ some '-' := by
      rw [List.getLast?_concat]
      simp
    have happ := splitDashes_append hsplitZ hA' hA2'
    have hshape : A ++ entriesFrom n (d :: ds)
        = (A ++ ['\n']) ++ (dashes ++ (bodyForM ' ' d (idStr n)
            ++ entriesFrom (n + 1) ds)) := by
      rw [entriesFrom, entryFor_decomp]
      simp [List.append_assoc]
    rw [hshape, happ]
    rw [show lead (d :: ds) = ['\n'] from rfl,
      show sectionsAux n (d :: ds)
        = (bodyForM ' ' d (idStr n) ++ lead ds) :: sectionsAux (n + 1) ds from rfl]
    simp

theorem parseGo_sections : ∀ (ds : List Str) (n : Nat),
    (∀ d ∈ ds, GoodDesc d) →
    parseGo (sectionsAux n ds) = expectedFrom n ds := by
  intro ds
  induction ds with
  | nil => intro n _; rfl
  | cons d ds ih =>
    intro n hgood
    rw [sectionsAux, parseGo]
    rw [sectionTrack_body n (lead ds) (hgood d (by simp))]
    rw [ih (n + 1) (fun x hx => hgood x (by simp [hx]))]
    rfl

/-- Parsing the canonical registry produced by `n` well-behaved creations. -/
theorem parseTracks_entries (ds : List Str) (hgood : ∀ d ∈ ds, GoodDesc d) :
    parseTracks (hdr0 ++ entriesFrom 1 ds) = expectedFrom 1 ds := by
  unfold parseTracks
  have hsec := splitSections ds 1 hdr0 (by decide) (by decide)
    (fun d hd => (hgood d hd).2.2.2.1)
  rw [hsec]
  rw [List.drop_one, List.tail_cons]
  exact parseGo_sections ds 1 hgood

theorem le_foldl_max : ∀ (xs : List Nat) (a : Nat),
    a ≤ xs.foldl Nat.max a ∧ ∀ x ∈ xs, x ≤ xs.foldl Nat.max a := by
  intro xs
  induction xs with
  | nil => intro a; exact ⟨le_refl a, by simp⟩
  | cons y ys ih =>
    intro a
    obtain ⟨h1, h2⟩ := ih (Nat.max a y)
    refine ⟨le_trans (Nat.le_max_left a y) h1, ?_⟩
    intro x hx
    rcases List.mem_cons.mp hx with rfl | hx2
    · exact le_trans (Nat.le_max_right a x) h1
    · exact h2 x hx2

theorem foldl_max_mem : ∀ (xs : List Nat) (a : Nat),
    xs.foldl Nat.max a = a ∨ xs.foldl Nat.max a ∈ xs := by
  intro xs
  induction xs with
  | nil => intro a; exact Or.inl rfl
  | cons y ys ih =>
    intro a
    rcases ih (Nat.max a y) with h | h
    · rcases Nat.le_total a y with hle | hle
      · have hm : Nat.max a y = y := by unfold Nat.max; exact sup_eq_right.mpr hle
        exact Or.inr (by rw [List.foldl_cons, h, hm]; simp)
      · have hm : Nat.max a y = a := by unfold Nat.max; exact sup_eq_left.mpr hle
        exact Or.inl (by rw [List.foldl_cons, h, hm])
    · exact Or.inr (by simp only [List.foldl_cons]; simp [h])

theorem firstIncomplete_eq_find (ts : List Track) :
    firstIncomplete ts = ts.find? (fun t => t.status != "completed".data) := by
  induction ts with
  | nil => rfl
  | cons t ts ih =>
    by_cases h : t.status = "completed".data
    · rw [firstIncomplete, if_neg (by simp [h])]
      rw [List.find?_cons_of_neg _ (by simp [h])]
      exact ih
    · rw [firstIncomplete, if_pos h]
      rw [List.find?_cons_of_pos _ (by simp [h])]

theorem firstIncomplete_none_iff (ts : List Track) :
    firstIncomplete ts = none ↔ ∀ t ∈ ts, t.status = "completed".data := by
  induction ts with
  | nil => simp [firstIncomplete]
  | cons t ts ih =>
    by_cases h : t.status = "completed".data
    · rw [firstIncomplete, if_neg (by simp [h])]
      constructor
      · intro hn x hx
        rcases List.mem_cons.mp hx with rfl | hx2
        · exact h
        · exact (ih.mp hn) x hx2
      · intro hall
        exact ih.mpr (fun x hx => hall x (by simp [hx]))
    · rw [firstIncomplete, if_pos h]
      constructor
      · intro hn; cases hn
      · intro hall; exact absurd (hall t (by simp)) h

theorem parseGo_eq_filterMap (secs : List Str) :
    parseGo secs = secs.filterMap sectionTrack := by
  induction secs with
  | nil => rfl
  | cons sec rest ih =>
    rw [parseGo, List.filterMap_cons]
    cases hs : sectionTrack sec <;> simp [hs, ih]

theorem wsDotPlus_sp_end {c : Char} {d' : Str} (hc : isWs c = false)
    (hnl : '\n' ∉ c :: d') :
    wsDotPlus (' ' :: c :: d') = some (c :: d') := by
  have ht : (' ' :: c :: d').takeWhile isWs = [' '] := by
    rw [takeWhile_cons_true (by decide), takeWhile_cons_false hc]
  rw [wsDotPlus]
  simp only [ht]
  rw [if_pos (by simp)]
  show some ((c :: d').takeWhile (fun x => x != '\n')) = some (c :: d')
  rw [List.takeWhile_eq_self_iff.mpr]
  intro x hx
  have : x ≠ '\n' := fun he => hnl (he ▸ hx)
  simpa using this

theorem marker_cases {m : Char} (h : isMarker m = true) :
    m = ' ' ∨ m = '~' ∨ m = 'x' := by
  simp only [isMarker, Bool.or_eq_true, decide_eq_true_eq] at h
  tauto

/-! ### Toolkit: `re.sub` over the heading pattern on canonical registries -/

theorem marker_ne_hash {m : Char} (h : isMarker m = true) : m ≠ '#' := by
  rcases marker_cases h with h1 | h1 | h1 <;> subst h1 <;> decide

theorem marker_ne_dash {m : Char} (h : isMarker m = true) : m ≠ '-' := by
  rcases marker_cases h with h1 | h1 | h1 <;> subst h1 <;> decide

theorem hasSub_drop {pat l : Str} (h : hasSub pat l = false) (k : Nat) :
    hasSub pat (l.drop k) = false := by
  rw [hasSub_false_iff] at h ⊢
  intro i
  rw [List.drop_drop]
  exact h _

theorem noHash_single (a : Char) : hasSub hash2 [a] = false := by
  simp [hasSub, hash2, List.isPrefixOf]

theorem noHash_of_no_hash {l : Str} (h : '#' ∉ l) : hasSub hash2 l = false := by
  induction l with
  | nil => rfl
  | cons a r ih =>
    have ha : a ≠ '#' := fun he => h (he ▸ List.mem_cons_self a r)
    have hr : '#' ∉ r := fun hm => h (List.mem_cons_of_mem a hm)
    have hpre : hash2.isPrefixOf (a :: r) = false := by
      cases hx : hash2.isPrefixOf (a :: r) with
      | false => rfl
      | true =>
        exfalso
        simp only [hash2, List.isPrefixOf, Bool.and_eq_true, beq_iff_eq] at hx
        exact ha hx.1.symm
    simp [hasSub, hpre, ih hr]

theorem noHash_idStr (n : Nat) : hasSub hash2 (idStr n) = false := by
  refine noHash_of_no_hash ?_
  intro hm
  rcases idStr_chars hm with h1 | h2
  · rw [show ("track-".data : Str) = ['t', 'r', 'a', 'c', 'k', '-'] from by decide] at h1
    simp only [List.mem_cons, List.not_mem_nil, or_false] at h1
    rcases h1 with h1 | h1 | h1 | h1 | h1 | h1 <;> cases h1
  · exact absurd h2 (by decide)

theorem idStr_head_ne_hash (n : Nat) (z : Str) :
    ((idStr n ++ z).head? ≠ some '#') := by
  rw [idStr_cons]
  simp

theorem noHash_append {a b : Str} (ha : hasSub hash2 a = false)
    (hb : hasSub hash2 b = false)
    (hbl : a.getLast? ≠ some '#' ∨ b.head? ≠ some '#') :
    hasSub hash2 (a ++ b) = false := by
  rw [hasSub_false_iff]
  intro i
  cases hx : List.isPrefixOf hash2 ((a ++ b).drop i) with
  | false => rfl
  | true =>
    exfalso
    rcases le_or_lt a.length i with hle | hlt
    · have hd : (a ++ b).drop i = b.drop (i - a.length) := by
        rw [List.drop_append_eq_append_drop, List.drop_of_length_le hle]; simp
      rw [hd] at hx
      have := (hasSub_false_iff hash2 b).mp hb (i - a.length)
      rw [this] at hx; cases hx
    · have hd : (a ++ b).drop i = a.drop i ++ b :=
        List.drop_append_of_le_length (by omega)
      rw [hd] at hx
      have hglast : a.getLast? = (a.drop i).getLast? := getLast?_eq_of_drop hlt
      rcases hr : a.drop i with _ | ⟨x, _ | ⟨y, rr⟩⟩
      · have := congrArg List.length hr
        simp only [List.length_drop, List.length_nil] at this
        omega
      · rw [hr] at hx
        cases b with
        | nil => simp [hash2, List.isPrefixOf] at hx
        | cons b0 bs =>
          simp only [List.cons_append, List.nil_append, hash2,
            List.isPrefixOf, Bool.and_eq_true, beq_iff_eq] at hx
          rcases hbl with hL | hR
          · exact hL (by rw [hglast, hr]; simp [hx.1.symm])
          · exact hR (by simp [hx.2.1.symm])
      · rw [hr] at hx
        have hpre : List.isPrefixOf hash2 (x :: y :: rr) = true := by
          simp only [List.cons_append, hash2, List.isPrefixOf,
            Bool.and_eq_true, beq_iff_eq] at hx ⊢
          exact ⟨hx.1, hx.2.1, trivial⟩
        have := (hasSub_false_iff hash2 a).mp ha i
        rw [hr] at this
        rw [this] at hpre; cases hpre

theorem wsLitGo_len {desc l r : Str} : ∀ {j : Nat},
    wsLitGo desc l j = some r → r.length ≤ l.length := by
  intro j
  induction j with
  | zero =>
    intro h
    unfold wsLitGo at h
    split at h
    · simp only [Option.some.injEq] at h
      subst h
      simp only [List.length_drop]
      omega
    · cases h
  | succ j ih =>
    intro h
    unfold wsLitGo at h
    split at h
    · simp only [Option.some.injEq] at h
      subst h
      simp only [List.length_drop]
      omega
    · exact ih h

theorem wsLit_len {desc l r : Str} (h : wsLit desc l = some r) :
    r.length ≤ l.length :=
  wsLitGo_len h

theorem subHeadAfter_len {desc t rem : Str} (h : subHeadAfter desc t = some rem) :
    rem.length ≤ t.length := by
  unfold subHeadAfter at h
  split at h
  case _ m l2 heq =>
    split at h
    · split at h
      · have hlen := wsLit_len h
        have h1 : (t.dropWhile isWs).length ≤ t.length := length_dropWhile_le _ _
        have h2 := congrArg List.length heq
        simp only [List.length_cons] at h2
        have h3 : (l2.dropWhile isWs).length ≤ l2.length := length_dropWhile_le _ _
        simp only [List.length_drop] at hlen
        omega
      · cases h
    · cases h
  case _ => cases h

theorem subAllF_irrel (desc : Str) (c : Char) : ∀ (f : Nat) (l : Str) (g : Nat),
    l.length < f → l.length < g → subAllF desc c f l = subAllF desc c g l := by
  intro f
  induction f with
  | zero => intro l g hf _; omega
  | succ f ihf =>
    intro l g hf hg
    cases g with
    | zero => omega
    | succ g =>
      cases l with
      | nil => rfl
      | cons c' rest =>
        simp only [subAllF]
        simp only [List.length_cons] at hf hg
        by_cases hp : hash2.isPrefixOf (c' :: rest) = true
        · rw [if_pos hp, if_pos hp]
          cases hrem : subHeadAfter desc (rest.drop 1) with
          | none =>
            simp only [hrem]
            rw [ihf rest g (by omega) (by omega)]
          | some rem =>
            simp only [hrem]
            have hlen := subHeadAfter_len hrem
            simp only [List.length_drop] at hlen
            rw [ihf rem g (by omega) (by omega)]
        · rw [if_neg hp, if_neg hp]
          rw [ihf rest g (by omega) (by omega)]

theorem subAll_cons_eq (desc : Str) (c c' : Char) (t : Str) :
    subAll desc c (c' :: t) =
      if hash2.isPrefixOf (c' :: t) then
        match subHeadAfter desc (t.drop 1) with
        | some rem =>
          '#' :: '#' :: ' ' :: '[' :: c :: ']' :: ' ' ::
            ("Track: ".data ++ desc ++ subAll desc c rem)
        | none => c' :: subAll desc c t
      else c' :: subAll desc c t := by
  show subAllF desc c ((c' :: t).length + 1) (c' :: t) = _
  simp only [List.length_cons, subAllF]
  by_cases hp : hash2.isPrefixOf (c' :: t) = true
  · rw [if_pos hp, if_pos hp]
    cases hrem : subHeadAfter desc (t.drop 1) with
    | none => simp only [hrem]; rfl
    | some rem =>
      simp only [hrem]
      have hlen := subHeadAfter_len hrem
      simp only [List.length_drop] at hlen
      rw [subAllF_irrel desc c (t.length + 1) rem (rem.length + 1)
        (by omega) (by omega)]
      rfl
  · rw [if_neg hp, if_neg hp]
    rfl

theorem subAll_step {c' : Char} {t : Str} (desc : Str) (c : Char)
    (h : hash2.isPrefixOf (c' :: t) = false) :
    subAll desc c (c' :: t) = c' :: subAll desc c t := by
  rw [subAll_cons_eq, if_neg (by intro hc; rw [h] at hc; cases hc)]

theorem subAll_append_skip (desc : Str) (c : Char) : ∀ {A B : Str},
    hasSub hash2 A = false → (A.getLast? ≠ some '#' ∨ B.head? ≠ some '#') →
    subAll desc c (A ++ B) = A ++ subAll desc c B := by
  intro A
  induction A with
  | nil => intro B _ _; rfl
  | cons a A ih =>
    intro B hA hbl
    obtain ⟨h1, h2⟩ := hasSub_cons_false hA
    have hnp : hash2.isPrefixOf (a :: (A ++ B)) = false := by
      cases hx : hash2.isPrefixOf (a :: (A ++ B)) with
      | false => rfl
      | true =>
        exfalso
        rcases A with _ | ⟨a1, A'⟩
        · cases B with
          | nil => simp [hash2, List.isPrefixOf] at hx
          | cons b0 bs =>
            simp only [List.nil_append, hash2, List.isPrefixOf,
              Bool.and_eq_true, beq_iff_eq] at hx
            rcases hbl with hL | hR
            · exact hL (by simp [hx.1.symm])
            · exact hR (by simp [hx.2.1.symm])
        · simp only [List.cons_append, hash2, List.isPrefixOf,
            Bool.and_eq_true, beq_iff_eq] at hx
          have : hash2.isPrefixOf (a :: a1 :: A') = true := by
            simp only [hash2, List.isPrefixOf, Bool.and_eq_true, beq_iff_eq]
            exact ⟨hx.1, hx.2.1, trivial⟩
          rw [h1] at this; cases this
    have hbl' : A.getLast? ≠ some '#' ∨ B.head? ≠ some '#' := by
      rcases hbl with hL | hR
      · cases A with
        | nil => exact Or.inl (by simp)
        | cons a1 A' => exact Or.inl (by rw [← List.getLast?_cons_cons]; exact hL)
      · exact Or.inr hR
    rw [show ((a :: A) ++ B) = a :: (A ++ B) from rfl, subAll_step desc c hnp,
      ih h2 hbl']
    rfl

theorem wsLitGo_succ (desc l : Str) (j : Nat) :
    wsLitGo desc l (j + 1) = if desc.isPrefixOf (l.drop (j + 1))
      then some (l.drop (j + 1 + desc.length)) else wsLitGo desc l j := rfl

theorem wsLitGo_zero (desc l : Str) :
    wsLitGo desc l 0 = if desc.isPrefixOf l then some (l.drop desc.length)
      else none := rfl

theorem isPrefixOf_append_stop {e : Char} : ∀ {d : Str}, e ∉ d →
    ∀ (x w : Str), List.isPrefixOf d (x ++ e :: w) = List.isPrefixOf d x := by
  intro d
  induction d with
  | nil => intro _ x w; simp [List.isPrefixOf]
  | cons a d' ih =>
    intro he x w
    have hae : (a == e) = false :=
      beq_eq_false_iff_ne.mpr (fun h => he (h ▸ List.mem_cons_self a d'))
    have he' : e ∉ d' := fun hm => he (List.mem_cons_of_mem a hm)
    cases x with
    | nil =>
      show List.isPrefixOf (a :: d') (e :: w) = List.isPrefixOf (a :: d') []
      simp only [List.isPrefixOf, hae, Bool.false_and]
    | cons b x' =>
      show List.isPrefixOf (a :: d') (b :: (x' ++ e :: w))
        = List.isPrefixOf (a :: d') (b :: x')
      simp only [List.isPrefixOf, ih he' x' w]

theorem wsLit_sp {d : Str} (hne : d ≠ []) (hst : stripL d = d) (hnl : '\n' ∉ d)
    {c0 : Char} (hc0 : isWs c0 = false) (z w : Str) :
    wsLit d (' ' :: ((c0 :: z) ++ '\n' :: w))
      = if List.isPrefixOf d (c0 :: z) then
          some ((c0 :: z).drop d.length ++ '\n' :: w) else none := by
  obtain ⟨d0, d', rfl⟩ : ∃ d0 d', d = d0 :: d' := by
    cases d with
    | nil => exact absurd rfl hne
    | cons d0 d' => exact ⟨d0, d', rfl⟩
  have hd0 : isWs d0 = false := stripL_head_not_ws hst
  have hL : (' ' :: ((c0 :: z) ++ '\n' :: w)).takeWhile isWs = [' '] := by
    rw [takeWhile_cons_true (by decide)]
    rw [show ((c0 :: z) ++ '\n' :: w) = c0 :: (z ++ '\n' :: w) from rfl]
    rw [takeWhile_cons_false hc0]
  unfold wsLit
  rw [hL]
  rw [show ([' '] : Str).length = 0 + 1 from rfl, wsLitGo_succ]
  rw [show ((' ' :: ((c0 :: z) ++ '\n' :: w)).drop (0 + 1))
    = (c0 :: z) ++ '\n' :: w from rfl]
  rw [isPrefixOf_append_stop hnl]
  by_cases hpre : List.isPrefixOf (d0 :: d') (c0 :: z) = true
  · rw [if_pos hpre, if_pos hpre]
    have hlen : (d0 :: d').length ≤ (c0 :: z).length :=
      (List.isPrefixOf_iff_prefix.mp hpre).length_le
    rw [show (0 + 1 + (d0 :: d').length) = (d0 :: d').length + 1 from by omega,
      List.drop_succ_cons]
    rw [List.drop_append_of_le_length hlen]
  · rw [if_neg hpre, if_neg hpre]
    rw [wsLitGo_zero]
    have hno : List.isPrefixOf (d0 :: d') (' ' :: ((c0 :: z) ++ '\n' :: w))
        = false := by
      cases hx : List.isPrefixOf (d0 :: d') (' ' :: ((c0 :: z) ++ '\n' :: w)) with
      | false => rfl
      | true =>
        exfalso
        simp only [List.isPrefixOf, Bool.and_eq_true, beq_iff_eq] at hx
        rw [hx.1] at hd0
        exact absurd hd0 (by decide)
    rw [if_neg (by intro hc; rw [hno] at hc; cases hc)]

theorem subHeadAfter_heading {d : Str} (hne : d ≠ []) (hst : stripL d = d)
    (hnl : '\n' ∉ d) {di : Str} (hine : di ≠ []) (hist : stripL di = di)
    (m : Char) (w : Str) :
    subHeadAfter d (' ' :: '[' :: m :: ']' :: ' ' :: 'T' :: 'r' :: 'a' :: 'c' ::
        'k' :: ':' :: ' ' :: (di ++ '\n' :: w))
      = if isMarker m = true then
          (if List.isPrefixOf d di
            then some (di.drop d.length ++ '\n' :: w) else none)
        else none := by
  obtain ⟨c0, z, rfl⟩ : ∃ c0 z, di = c0 :: z := by
    cases di with
    | nil => exact absurd rfl hine
    | cons c0 z => exact ⟨c0, z, rfl⟩
  have hc0 : isWs c0 = false := stripL_head_not_ws hist
  show (if isMarker m = true then wsLit d (' ' :: ((c0 :: z) ++ '\n' :: w))
    else none) = _
  rw [wsLit_sp hne hst hnl hc0 z w]

theorem subAll_hash2_some (desc : Str) (c : Char) {t rem : Str}
    (h : subHeadAfter desc t = some rem) :
    subAll desc c ('#' :: '#' :: t)
      = '#' :: '#' :: ' ' :: '[' :: c :: ']' :: ' ' ::
          ("Track: ".data ++ desc ++ subAll desc c rem) := by
  rw [subAll_cons_eq]
  rw [if_pos (show hash2.isPrefixOf ('#' :: '#' :: t) = true from by
    simp [hash2, List.isPrefixOf])]
  rw [show (('#' :: t).drop 1) = t from rfl, h]

theorem subAll_hash2_none (desc : Str) (c : Char) {t : Str}
    (h : subHeadAfter desc t = none) :
    subAll desc c ('#' :: '#' :: t) = '#' :: subAll desc c ('#' :: t) := by
  rw [subAll_cons_eq]
  rw [if_pos (show hash2.isPrefixOf ('#' :: '#' :: t) = true from by
    simp [hash2, List.isPrefixOf])]
  rw [show (('#' :: t).drop 1) = t from rfl, h]

theorem entriesFromM_head (n : Nat) (ps : List (Char × Str)) :
    (entriesFromM n ps).head? ≠ some '#' := by
  cases ps with
  | nil => simp [entriesFromM]
  | cons p ps =>
    show (entryForM p.1 p.2 (idStr n) ++ entriesFromM (n + 1) ps).head?
      ≠ some '#'
    rw [show entryForM p.1 p.2 (idStr n)
      = '\n' :: (dashes ++ bodyForM p.1 p.2 (idStr n)) from rfl]
    simp

theorem idStr_head_ne_hash_self (n : Nat) : (idStr n).head? ≠ some '#' := by
  rw [idStr_cons]
  simp

theorem noHash_folderTail (n : Nat) :
    hasSub hash2 ('\n' :: ("\n**Folder:** ".data ++ (folderPat ++ (idStr n ++
      (']' :: ("(conductor/tracks/".data ++ (idStr n ++ [')', '\n', '\n'])))))))
      = false := by
  have htid := noHash_idStr n
  have h0 : hasSub hash2 (idStr n ++ [')', '\n', '\n']) = false :=
    noHash_append htid (by decide) (Or.inr (by decide))
  have h1 : hasSub hash2 ("(conductor/tracks/".data
      ++ (idStr n ++ [')', '\n', '\n'])) = false :=
    noHash_append (by decide) h0 (Or.inr (idStr_head_ne_hash n _))
  have h2 : hasSub hash2 (']' :: ("(conductor/tracks/".data
      ++ (idStr n ++ [')', '\n', '\n']))) = false :=
    noHash_append (noHash_single ']') h1 (Or.inl (by decide))
  have h3 : hasSub hash2 (idStr n ++ (']' :: ("(conductor/tracks/".data
      ++ (idStr n ++ [')', '\n', '\n'])))) = false :=
    noHash_append htid h2 (Or.inr (by simp))
  have h4 : hasSub hash2 (folderPat ++ (idStr n ++ (']' ::
      ("(conductor/tracks/".data ++ (idStr n ++ [')', '\n', '\n']))))) = false :=
    noHash_append (by decide) h3 (Or.inr (idStr_head_ne_hash n _))
  have h5 : hasSub hash2 ("\n**Folder:** ".data ++ (folderPat ++ (idStr n ++
      (']' :: ("(conductor/tracks/".data
        ++ (idStr n ++ [')', '\n', '\n'])))))) = false := by
    refine noHash_append (by decide) h4 (Or.inr ?_)
    rw [show (folderPat : Str) = '[' :: "conductor/tracks/".data from by decide]
    exact head_cons_append_ne (by decide) _ _
  exact noHash_append (noHash_single '\n') h5 (Or.inl (by decide))

theorem noHash_descTail (n : Nat) {t : Str} (ht : hasSub hash2 t = false) :
    hasSub hash2 (t ++ '\n' :: ("\n**Folder:** ".data ++ (folderPat ++ (idStr n
      ++ (']' :: ("(conductor/tracks/".data ++ (idStr n ++ [')', '\n', '\n'])))))))
      = false :=
  noHash_append ht (noHash_folderTail n) (Or.inr (by simp))

theorem entryForM_shape (m : Char) (di : Str) (n : Nat) (E : Str) :
    entryForM m di (idStr n) ++ E = '\n' :: '-' :: '-' :: '-' :: '\n' :: '\n' ::
      '#' :: '#' :: ' ' :: '[' :: m :: ']' :: ' ' ::
      'T' :: 'r' :: 'a' :: 'c' :: 'k' :: ':' :: ' ' ::
      (di ++ '\n' :: ("\n**Folder:** ".data ++ (folderPat ++ (idStr n ++
        (']' :: ("(conductor/tracks/".data
          ++ (idStr n ++ ([')', '\n', '\n'] ++ E)))))))) := by
  rw [show entryForM m di (idStr n)
    = '\n' :: (dashes ++ bodyForM m di (idStr n)) from rfl, bodyForM_cons]
  simp [dashes, List.append_assoc]

theorem subAll_entry_step {d : Str} (c : Char) (hne : d ≠ [])
    (hst : stripL d = d) (hnl : '\n' ∉ d) {m : Char} (hm : isMarker m = true)
    {di : Str} (hine : di ≠ []) (hist : stripL di = di)
    (hih : hasSub hash2 di = false)
    {W0 : Str} (hW0 : hasSub hash2 ('\n' :: W0) = false)
    {E : Str} (hE : E.head? ≠ some '#') :
    subAll d c ('\n' :: '-' :: '-' :: '-' :: '\n' :: '\n' :: '#' :: '#' :: ' ' ::
        '[' :: m :: ']' :: ' ' :: 'T' :: 'r' :: 'a' :: 'c' :: 'k' :: ':' :: ' ' ::
        (di ++ '\n' :: (W0 ++ E)))
      = '\n' :: '-' :: '-' :: '-' :: '\n' :: '\n' :: '#' :: '#' :: ' ' ::
        '[' :: (if List.isPrefixOf d di then c else m) :: ']' :: ' ' ::
        'T' :: 'r' :: 'a' :: 'c' :: 'k' :: ':' :: ' ' ::
        (di ++ '\n' :: (W0 ++ subAll d c E)) := by
  rw [show ('\n' :: '-' :: '-' :: '-' :: '\n' :: '\n' :: '#' :: '#' :: ' ' ::
      '[' :: m :: ']' :: ' ' :: 'T' :: 'r' :: 'a' :: 'c' :: 'k' :: ':' :: ' ' ::
      (di ++ '\n' :: (W0 ++ E)))
    = ['\n', '-', '-', '-', '\n', '\n'] ++ ('#' :: '#' :: (' ' :: '[' :: m :: ']' ::
      ' ' :: 'T' :: 'r' :: 'a' :: 'c' :: 'k' :: ':' :: ' ' ::
      (di ++ '\n' :: (W0 ++ E)))) from rfl]
  rw [@subAll_append_skip d c ['\n', '-', '-', '-', '\n', '\n'] _ (by decide)
    (Or.inl (by decide))]
  have hhead := subHeadAfter_heading hne hst hnl hine hist m (W0 ++ E)
  rw [if_pos hm] at hhead
  by_cases hpre : List.isPrefixOf d di = true
  · rw [if_pos hpre] at hhead
    rw [subAll_hash2_some d c hhead]
    rw [show (di.drop d.length ++ '\n' :: (W0 ++ E))
      = ((di.drop d.length ++ ('\n' :: W0)) ++ E) from by simp [List.append_assoc]]
    rw [@subAll_append_skip d c (di.drop d.length ++ ('\n' :: W0)) E
      (noHash_append (hasSub_drop hih d.length) hW0 (Or.inr (by simp)))
      (Or.inr hE)]
    rw [if_pos hpre]
    have hdi : d ++ di.drop d.length = di := by
      have hp := List.isPrefixOf_iff_prefix.mp hpre
      conv_rhs => rw [← List.take_append_drop d.length di]
      rw [← List.prefix_iff_eq_take.mp hp]
    have hdi2 : ∀ X : Str, d ++ (di.drop d.length ++ X) = di ++ X := by
      intro X
      rw [← List.append_assoc, hdi]
    rw [show ("Track: ".data : Str) = ['T', 'r', 'a', 'c', 'k', ':', ' ']
      from by decide]
    simp only [List.cons_append, List.nil_append, List.append_assoc]
    rw [hdi2]
  · rw [if_neg hpre] at hhead
    rw [subAll_hash2_none d c hhead]
    rw [subAll_step d c (show hash2.isPrefixOf ('#' :: ' ' :: '[' :: m :: ']' ::
      ' ' :: 'T' :: 'r' :: 'a' :: 'c' :: 'k' :: ':' :: ' ' ::
      (di ++ '\n' :: (W0 ++ E))) = false from rfl)]
    have hA2 : hasSub hash2 (di ++ ('\n' :: W0)) = false :=
      noHash_append hih hW0 (Or.inr (by simp))
    have hA3 : hasSub hash2 ([']', ' ', 'T', 'r', 'a', 'c', 'k', ':', ' ']
        ++ (di ++ ('\n' :: W0))) = false :=
      noHash_append (by decide) hA2 (Or.inl (by decide))
    have hA4 : hasSub hash2 ([m] ++ ([']', ' ', 'T', 'r', 'a', 'c', 'k', ':', ' ']
        ++ (di ++ ('\n' :: W0)))) = false :=
      noHash_append (noHash_single m) hA3 (Or.inl (by simpa using marker_ne_hash hm))
    have hA5 : hasSub hash2 ([' ', '['] ++ ([m] ++ ([']', ' ', 'T', 'r', 'a', 'c',
        'k', ':', ' '] ++ (di ++ ('\n' :: W0))))) = false :=
      noHash_append (by decide) hA4 (Or.inl (by decide))
    rw [show (' ' :: '[' :: m :: ']' :: ' ' :: 'T' :: 'r' :: 'a' :: 'c' :: 'k' ::
        ':' :: ' ' :: (di ++ '\n' :: (W0 ++ E)))
      = ([' ', '['] ++ ([m] ++ ([']', ' ', 'T', 'r', 'a', 'c', 'k', ':', ' ']
        ++ (di ++ ('\n' :: W0))))) ++ E from by simp [List.append_assoc]]
    rw [@subAll_append_skip d c ([' ', '['] ++ ([m] ++ ([']', ' ', 'T', 'r', 'a',
      'c', 'k', ':', ' '] ++ (di ++ ('\n' :: W0))))) E hA5 (Or.inr hE)]
    rw [if_neg hpre]
    simp only [List.cons_append, List.nil_append, List.append_assoc]

theorem subAll_entriesM {d : Str} (c : Char) (hne : d ≠ []) (hst : stripL d = d)
    (hnl : '\n' ∉ d) :
    ∀ (ps : List (Char × Str)) (n : Nat), (∀ p ∈ ps, GoodPair p) →
    subAll d c (entriesFromM n ps) = entriesFromM n (markSet d c ps) := by
  intro ps
  induction ps with
  | nil => intro n _; rfl
  | cons p ps ih =>
    intro n hgood
    obtain ⟨m, di⟩ := p
    obtain ⟨hm, ⟨⟨hine, hist, hinl, hid, hif⟩, hih, hib⟩⟩ := hgood (m, di) (by simp)
    have hrest : ∀ q ∈ ps, GoodPair q := fun q hq => hgood q (by simp [hq])
    have hW0eq : ∀ X : Str, "\n**Folder:** ".data ++ (folderPat ++ (idStr n ++
        (']' :: ("(conductor/tracks/".data ++ (idStr n ++ ([')', '\n', '\n'] ++ X))))))
      = ("\n**Folder:** ".data ++ (folderPat ++ (idStr n ++ (']' ::
        ("(conductor/tracks/".data ++ (idStr n ++ [')', '\n', '\n'])))))) ++ X := by
      intro X
      simp [List.append_assoc]
    show subAll d c (entryForM m di (idStr n) ++ entriesFromM (n + 1) ps) = _
    rw [entryForM_shape, hW0eq]
    rw [subAll_entry_step c hne hst hnl hm hine hist hih
      (noHash_folderTail n) (entriesFromM_head (n + 1) ps)]
    rw [ih (n + 1) hrest]
    show _ = entryForM (if List.isPrefixOf d di then c else m) di (idStr n)
        ++ entriesFromM (n + 1) (markSet d c ps)
    rw [entryForM_shape, hW0eq]

/-! ### Toolkit: parsing a canonical registry with arbitrary markers -/

theorem noDash_bodyM (n : Nat) {m : Char} (hm : m ≠ '-') {d : Str}
    (hd : hasSub dashes d = false) :
    hasSub dashes (bodyForM m d (idStr n)) = false := by
  have htid : hasSub dashes (idStr n) = false := noDash_idStr n
  have htid_head : ∀ z : Str, ((idStr n ++ z).head? ≠ some '-') := by
    intro z
    rw [idStr_cons]
    exact head_cons_append_ne (by decide) _ _
  have h1 : hasSub dashes (idStr n ++ ")\n\n".data) = false :=
    noDash_append htid (by decide) (Or.inr (by decide))
  have h2 : hasSub dashes ("](conductor/tracks/".data ++ (idStr n ++ ")\n\n".data))
      = false :=
    noDash_append (by decide) h1 (Or.inr (htid_head _))
  have h3 : hasSub dashes (idStr n ++ ("](conductor/tracks/".data
      ++ (idStr n ++ ")\n\n".data))) = false := by
    refine noDash_append htid h2 (Or.inr ?_)
    rw [show ("](conductor/tracks/".data : Str) = ']' :: "(conductor/tracks/".data
      from by decide]
    exact head_cons_append_ne (by decide) _ _
  have h4 : hasSub dashes ("\n\n**Folder:** [conductor/tracks/".data
      ++ (idStr n ++ ("](conductor/tracks/".data ++ (idStr n ++ ")\n\n".data))))
      = false :=
    noDash_append (by decide) h3 (Or.inr (htid_head _))
  have h5 : hasSub dashes (d ++ ("\n\n**Folder:** [conductor/tracks/".data
      ++ (idStr n ++ ("](conductor/tracks/".data ++ (idStr n ++ ")\n\n".data)))))
      = false := by
    refine noDash_append hd h4 (Or.inr ?_)
    rw [show ("\n\n**Folder:** [conductor/tracks/".data : Str)
      = '\n' :: "\n**Folder:** [conductor/tracks/".data from by decide]
    exact head_cons_append_ne (by decide) _ _
  have h6 : hasSub dashes ("] Track: ".data ++ (d
      ++ ("\n\n**Folder:** [conductor/tracks/".data
      ++ (idStr n ++ ("](conductor/tracks/".data ++ (idStr n ++ ")\n\n".data))))))
      = false :=
    noDash_append (by decide) h5 (Or.inl (by decide))
  have h7 : hasSub dashes (([m] : Str) ++ ("] Track: ".data ++ (d
      ++ ("\n\n**Folder:** [conductor/tracks/".data
      ++ (idStr n ++ ("](conductor/tracks/".data ++ (idStr n ++ ")\n\n".data)))))))
      = false :=
    noDash_append (by simp [hasSub, dashes, List.isPrefixOf]) h6
      (Or.inl (by simpa using hm))
  have h8 : hasSub dashes ("\n\n## [".data ++ (([m] : Str) ++ ("] Track: ".data
      ++ (d ++ ("\n\n**Folder:** [conductor/tracks/".data
      ++ (idStr n ++ ("](conductor/tracks/".data ++ (idStr n ++ ")\n\n".data))))))))
      = false :=
    noDash_append (by decide) h7 (Or.inl (by decide))
  unfold bodyForM
  simpa [List.append_assoc] using h8

theorem folderSearch_tail (n : Nat) {d z : Str}
    (hfp : hasSub folderPat d = false) :
    folderSearch (d ++ '\n' :: ("\n**Folder:** ".data
      ++ (folderPat ++ (idStr n ++ ']' :: z)))) = some (idStr n) := by
  rw [folderSearch_skip_noSub hfp]
  have h2 : folderSearch ('\n' :: ("\n**Folder:** ".data
      ++ (folderPat ++ (idStr n ++ ']' :: z))))
      = folderSearch (folderPat ++ (idStr n ++ ']' :: z)) := rfl
  rw [h2]
  have h3 : folderPat ++ (idStr n ++ ']' :: z)
      = '[' :: ("conductor/tracks/".data ++ (idStr n ++ ']' :: z)) := rfl
  rw [h3]
  apply scanFirst_cons_some
  rw [← h3]
  exact folderAt_exact idStr_no_rb (idStr_ne_nil n)

theorem folderSearch_canonM (n : Nat) {m : Char} (hm : isMarker m = true)
    {d z : Str} (hfp : hasSub folderPat d = false) :
    folderSearch ('\n' :: '\n' :: '#' :: '#' :: ' ' :: '[' :: m :: ']' :: ' ' ::
      'T' :: 'r' :: 'a' :: 'c' :: 'k' :: ':' :: ' ' ::
      (d ++ '\n' :: ("\n**Folder:** ".data ++ (folderPat ++ (idStr n ++ ']' :: z)))))
      = some (idStr n) := by
  rcases marker_cases hm with h | h | h <;> subst h <;>
    exact folderSearch_tail n hfp

theorem sectionTrack_bodyM {d : Str} (n : Nat) (t : Str) {m : Char}
    (hm : isMarker m = true) (hd : GoodDesc d) :
    sectionTrack (bodyForM m d (idStr n) ++ t)
      = some ⟨idStr n, d, statusName m, "conductor/tracks/".data ++ idStr n⟩ := by
  obtain ⟨hne, hst, hnl, hdash, hfp⟩ := hd
  obtain ⟨c, d', rfl⟩ : ∃ c d', d = c :: d' := by
    cases d with
    | nil => exact absurd rfl hne
    | cons c d' => exact ⟨c, d', rfl⟩
  have hc : isWs c = false := stripL_head_not_ws hst
  have hbody : bodyForM m (c :: d') (idStr n) ++ t
      = '\n' :: '\n' :: '#' :: '#' :: ' ' :: '[' :: m :: ']' :: ' ' ::
        'T' :: 'r' :: 'a' :: 'c' :: 'k' :: ':' :: ' ' ::
        ((c :: d') ++ '\n' :: ("\n**Folder:** ".data ++ (folderPat ++
          (idStr n ++ ']' :: ("(conductor/tracks/".data ++ idStr n
            ++ [')', '\n', '\n'] ++ t))))) := by
    rw [bodyForM_cons]
    simp [List.append_assoc]
  rw [hbody]
  unfold sectionTrack
  rw [headingSearch_canon hm hc hnl]
  rw [folderSearch_canonM n hm hfp]
  show some (Track.mk (idStr n) (stripL (c :: d')) (statusName m)
      ("conductor/tracks/".data ++ idStr n))
    = some (Track.mk (idStr n) (c :: d') (statusName m)
      ("conductor/tracks/".data ++ idStr n))
  rw [hst]

theorem splitSectionsM : ∀ (ps : List (Char × Str)) (n : Nat) (A : Str),
    hasSub dashes A = false → A.getLast? ≠ some '-' →
    (∀ p ∈ ps, p.1 ≠ '-' ∧ hasSub dashes p.2 = false) →
    splitDashes (A ++ entriesFromM n ps) = (A ++ leadM ps) :: sectionsAuxM n ps := by
  intro ps
  induction ps with
  | nil =>
    intro n A hA _ _
    rw [show entriesFromM n [] = [] from rfl, show leadM [] = [] from rfl,
      show sectionsAuxM n [] = [] from rfl]
    simp only [List.append_nil]
    exact splitDashes_noDash hA
  | cons p ps ih =>
    intro n A hA hA2 hgood
    obtain ⟨m, di⟩ := p
    obtain ⟨hmd, hgd⟩ := hgood (m, di) (by simp)
    have hrest : ∀ q ∈ ps, q.1 ≠ '-' ∧ hasSub dashes q.2 = false :=
      fun q hq => hgood q (by simp [hq])
    have hbody := ih (n + 1) (bodyForM m di (idStr n))
      (noDash_bodyM n hmd hgd) (by rw [getLast_bodyForM]; simp) hrest
    have hsplitZ : splitDashes (dashes ++ (bodyForM m di (idStr n)
        ++ entriesFromM (n + 1) ps))
        = [] :: ((bodyForM m di (idStr n) ++ leadM ps)
            :: sectionsAuxM (n + 1) ps) := by
      rw [splitDashes_entry, hbody]
    have hA' : hasSub dashes (A ++ ['\n']) = false :=
      noDash_append hA (by decide) (Or.inr (by decide))
    have hA2' : (A ++ ['\n']).getLast? ≠ some '-' := by
      rw [List.getLast?_concat]
      simp
    have happ := splitDashes_append hsplitZ hA' hA2'
    have hshape : A ++ entriesFromM n ((m, di) :: ps)
        = (A ++ ['\n']) ++ (dashes ++ (bodyForM m di (idStr n)
            ++ entriesFromM (n + 1) ps)) := by
      show A ++ (entryForM m di (idStr n) ++ entriesFromM (n + 1) ps) = _
      rw [show entryForM m di (idStr n)
        = '\n' :: (dashes ++ bodyForM m di (idStr n)) from rfl]
      simp [List.append_assoc]
    rw [hshape, happ]
    rw [show leadM ((m, di) :: ps) = ['\n'] from rfl,
      show sectionsAuxM n ((m, di) :: ps)
        = (bodyForM m di (idStr n) ++ leadM ps) :: sectionsAuxM (n + 1) ps from rfl]
    simp

theorem parseGo_sectionsM : ∀ (ps : List (Char × Str)) (n : Nat),
    (∀ p ∈ ps, GoodPair p) →
    parseGo (sectionsAuxM n ps) = expectedFromM n ps := by
  intro ps
  induction ps with
  | nil => intro n _; rfl
  | cons p ps ih =>
    intro n hgood
    obtain ⟨m, di⟩ := p
    obtain ⟨hm, hgd, _, _⟩ := hgood (m, di) (by simp)
    rw [show sectionsAuxM n ((m, di) :: ps)
      = (bodyForM m di (idStr n) ++ leadM ps) :: sectionsAuxM (n + 1) ps from rfl]
    rw [parseGo]
    rw [sectionTrack_bodyM n (leadM ps) hm hgd]
    rw [ih (n + 1) (fun q hq => hgood q (by simp [hq]))]
    rfl

theorem parseTracks_entriesM (ps : List (Char × Str))
    (hgood : ∀ p ∈ ps, GoodPair p) :
    parseTracks (hdr0 ++ entriesFromM 1 ps) = expectedFromM 1 ps := by
  unfold parseTracks
  have hsec := splitSectionsM ps 1 hdr0 (by decide) (by decide)
    (fun p hp => ⟨marker_ne_dash (hgood p hp).1, (hgood p hp).2.1.2.2.2.1⟩)
  rw [hsec]
  rw [List.drop_one, List.tail_cons]
  exact parseGo_sectionsM ps 1 hgood

/-! ### Toolkit: `update_track_status` on a canonical registry -/

theorem statusChar_marker (s : Str) : isMarker (statusChar s) = true := by
  unfold statusChar
  split
  · decide
  split
  · decide
  split
  · decide
  · decide

theorem expectedFromM_mem : ∀ (ps : List (Char × Str)) (n : Nat) (tr : Track),
    tr ∈ expectedFromM n ps → ∃ p ∈ ps, tr.description = p.2 := by
  intro ps
  induction ps with
  | nil =>
    intro n tr h
    rw [show expectedFromM n [] = [] from rfl] at h
    cases h
  | cons p ps ih =>
    intro n tr h
    rw [show expectedFromM n (p :: ps) = ⟨idStr n, p.2, statusName p.1,
      "conductor/tracks/".data ++ idStr n⟩ :: expectedFromM (n + 1) ps from rfl] at h
    rcases List.mem_cons.mp h with h1 | h2
    · exact ⟨p, by simp, by rw [h1]⟩
    · obtain ⟨q, hq, hd⟩ := ih (n + 1) tr h2
      exact ⟨q, by simp [hq], hd⟩

theorem find?_markSet_desc (d : Str) (c : Char) (tid : Str) :
    ∀ (ps : List (Char × Str)) (n : Nat),
    ((expectedFromM n (markSet d c ps)).find? (fun t => t.id = tid)).map
        Track.description
      = ((expectedFromM n ps).find? (fun t => t.id = tid)).map
          Track.description := by
  intro ps
  induction ps with
  | nil => intro n; rfl
  | cons p ps ih =>
    intro n
    rw [show markSet d c (p :: ps)
      = (if List.isPrefixOf d p.2 then c else p.1, p.2) :: markSet d c ps
      from rfl]
    rw [show expectedFromM n ((if List.isPrefixOf d p.2 then c else p.1, p.2)
        :: markSet d c ps)
      = ⟨idStr n, p.2, statusName (if List.isPrefixOf d p.2 then c else p.1),
          "conductor/tracks/".data ++ idStr n⟩
        :: expectedFromM (n + 1) (markSet d c ps) from rfl]
    rw [show expectedFromM n (p :: ps) = ⟨idStr n, p.2, statusName p.1,
      "conductor/tracks/".data ++ idStr n⟩ :: expectedFromM (n + 1) ps from rfl]
    by_cases h : (idStr n : Str) = tid
    · simp [List.find?, h]
    · simp only [List.find?, decide_eq_false h]
      exact ih (n + 1)

theorem markSet_markSet (d : Str) (c : Char) (ps : List (Char × Str)) :
    markSet d c (markSet d c ps) = markSet d c ps := by
  unfold markSet
  rw [List.map_map]
  apply List.map_congr_left
  intro p _
  by_cases h : List.isPrefixOf d p.2 = true
  · simp [Function.comp, h]
  · simp [Function.comp, h]

theorem markSet_good {d : Str} {c : Char} (hc : isMarker c = true)
    {ps : List (Char × Str)} (hps : ∀ p ∈ ps, GoodPair p) :
    ∀ q ∈ markSet d c ps, GoodPair q := by
  intro q hq
  unfold markSet at hq
  obtain ⟨p, hp, rfl⟩ := List.mem_map.mp hq
  obtain ⟨hm, hpd⟩ := hps p hp
  constructor
  · by_cases h : List.isPrefixOf d p.2 = true
    · simpa [h] using hc
    · simpa [h] using hm
  · exact hpd

theorem getTrackById_canon (ps : List (Char × Str)) (tid : Str)
    (hps : ∀ p ∈ ps, GoodPair p) :
    getTrackById (some (hdr0 ++ entriesFromM 1 ps)) tid
      = (expectedFromM 1 ps).find? (fun t => t.id = tid) := by
  show (parseTracks (hdr0 ++ entriesFromM 1 ps)).find? (fun t => t.id = tid)
    = (expectedFromM 1 ps).find? (fun t => t.id = tid)
  rw [parseTracks_entriesM ps hps]

theorem updateTrackStatus_canon (ps : List (Char × Str)) (tid s : Str)
    (hps : ∀ p ∈ ps, GoodPair p) :
    updateTrackStatus (some (hdr0 ++ entriesFromM 1 ps)) tid s
      = .ok (some (match (expectedFromM 1 ps).find? (fun t => t.id = tid) with
          | none => hdr0 ++ entriesFromM 1 ps
          | some tr => hdr0 ++ entriesFromM 1
              (markSet tr.description (statusChar s) ps))) := by
  show (match getTrackById (some (hdr0 ++ entriesFromM 1 ps)) tid with
    | none => Except.ok (some (hdr0 ++ entriesFromM 1 ps))
    | some tr => Except.ok (some (subAll tr.description (statusChar s)
        (hdr0 ++ entriesFromM 1 ps)))) = _
  rw [getTrackById_canon ps tid hps]
  cases hfind : (expectedFromM 1 ps).find? (fun t => t.id = tid) with
  | none => rfl
  | some tr =>
    obtain ⟨p, hp, hdesc⟩ := expectedFromM_mem ps 1 tr
      (List.mem_of_find?_eq_some hfind)
    obtain ⟨hm, ⟨⟨hne, hst, hnl, hx1, hx2⟩, hih, hib⟩⟩ := hps p hp
    show Except.ok (some (subAll tr.description (statusChar s)
        (hdr0 ++ entriesFromM 1 ps)))
      = Except.ok (some (hdr0 ++ entriesFromM 1
          (markSet tr.description (statusChar s) ps)))
    rw [hdesc]
    rw [@subAll_append_skip p.2 (statusChar s) hdr0 (entriesFromM 1 ps)
      (by decide) (Or.inr (entriesFromM_head 1 ps))]
    rw [subAll_entriesM (statusChar s) hne hst hnl ps 1 hps]

/-! ### Claim theorems -/

/-- C10: when `tracks.md` does not exist, `update_track_status` raises
`FileNotFoundError` (it reads the registry unconditionally before the id
lookup, modelled by `Except.error ()`), whereas `update_task_status` checks
for the plan file first and returns silently (no error, no write) when the
track's `plan.md` does not exist. -/
theorem claim_C10_missing_file_behavior :
    (∀ tid s : Str, updateTrackStatus none tid s = .error ()) ∧
    (∀ d s : Str, updateTaskStatus none d s = none) :=
  ⟨fun _ _ => rfl, fun _ _ => rfl⟩

/-- C9: for any status string outside
`{pending, in_progress, completed}`, both update functions fall back to the
pending marker `' '` (via `status_map.get(new_status, ' ')`) and behave
exactly as an update to `pending`: no error is raised and the pending
marker is written into the matched heading or task line. -/
theorem claim_C9_invalid_status_falls_back (s : Str)
    (h1 : s ≠ "pending".data) (h2 : s ≠ "in_progress".data)
    (h3 : s ≠ "completed".data) :
    statusChar s = ' ' ∧
    (∀ (reg : Option Str) (tid : Str),
      updateTrackStatus reg tid s = updateTrackStatus reg tid "pending".data) ∧
    (∀ (plan : Option Str) (d : Str),
      updateTaskStatus plan d s = updateTaskStatus plan d "pending".data) := by
  have hc : statusChar s = ' ' := by
    unfold statusChar
    rw [if_neg h1, if_neg h2, if_neg h3]
  refine ⟨hc, ?_, ?_⟩
  · intro reg tid
    cases reg with
    | none => rfl
    | some content =>
      simp only [updateTrackStatus, hc,
        show statusChar "pending".data = ' ' from rfl]
  · intro plan d
    cases plan with
    | none => rfl
    | some content =>
      simp only [updateTaskStatus, hc,
        show statusChar "pending".data = ' ' from rfl]

/-- Witness for C9 at the concrete invalid status `"done"`. -/
theorem claim_C9_witness :
    ("done".data ≠ "pending".data ∧ "done".data ≠ "in_progress".data ∧
      "done".data ≠ "completed".data) ∧
    statusChar "done".data = ' ' ∧
    updateTrackStatus (some (hdr0 ++ entryFor "A".data "track-001".data))
        "track-001".data "done".data
      = updateTrackStatus (some (hdr0 ++ entryFor "A".data "track-001".data))
        "track-001".data "pending".data ∧
    updateTaskStatus (some "- [x] Task: T".data) "T".data "done".data
      = updateTaskStatus (some "- [x] Task: T".data) "T".data "pending".data := by
  have h := claim_C9_invalid_status_falls_back "done".data
    (by decide) (by decide) (by decide)
  exact ⟨⟨by decide, by decide, by decide⟩, h.1, h.2.1 _ _, h.2.2 _ _⟩

/-- C5 counterexample: a store state in which no track with the id is found
by parsing (here: `tracks.md` missing, so `parse_tracks` returns `[]`), yet
`update_track_status` raises `FileNotFoundError` instead of returning
silently — the claim as stated ranges over *every* such store state and is
falsified by this one. -/
theorem claim_C5_counterexample :
    parseTracksOpt (none : Option Str) = [] ∧
    getTrackById none "track-001".data = none ∧
    updateTrackStatus none "track-001".data "completed".data = .error () :=
  ⟨rfl, rfl, rfl⟩

/-- C5 (amended): when the registry file exists and no parsed track has the
given id, `update_track_status` performs no write and returns without
error: the registry content is returned unchanged. -/
theorem claim_C5_silent_noop (content tid s : Str)
    (h : getTrackById (some content) tid = none) :
    updateTrackStatus (some content) tid s = .ok (some content) := by
  simp only [updateTrackStatus, h]

/-- Witness for the amended C5 on a registry with no matching track. -/
theorem claim_C5_witness :
    getTrackById (some hdr0) "track-001".data = none ∧
    updateTrackStatus (some hdr0) "track-001".data "completed".data
      = .ok (some hdr0) :=
  ⟨by decide, claim_C5_silent_noop hdr0 "track-001".data "completed".data (by decide)⟩

/-- C4: `get_next_track_id` returns `track-001` when the tracks directory
is absent or no subdirectory name matches `track-<digits>`; otherwise it
returns `track-(max+1)` zero-padded to three digits, where `max` is the
maximum of the numbers extracted from the matching names (the fold below is
that maximum: it bounds every extracted number and is itself one of them).
No gap-filling. -/
theorem claim_C4_next_track_id :
    getNextTrackId none = "track-001".data ∧
    (∀ l : List Str, l.filterMap trackNumSearch = [] →
      getNextTrackId (some l) = "track-001".data) ∧
    (∀ (l : List Str) (n : Nat) (ns : List Nat),
      l.filterMap trackNumSearch = n :: ns →
      getNextTrackId (some l)
          = "track-".data ++ fmt3 ((n :: ns).foldl Nat.max 0 + 1) ∧
        (∀ x ∈ n :: ns, x ≤ (n :: ns).foldl Nat.max 0) ∧
        (n :: ns).foldl Nat.max 0 ∈ n :: ns) := by
  refine ⟨rfl, ?_, ?_⟩
  · intro l h
    cases l with
    | nil => rfl
    | cons a rest =>
      rw [getNextTrackId]
      rw [if_neg (by simp)]
      rw [h]
  · intro l n ns h
    refine ⟨?_, (le_foldl_max (n :: ns) 0).2, ?_⟩
    · cases l with
      | nil => simp [List.filterMap_nil] at h
      | cons a rest =>
        rw [getNextTrackId]
        rw [if_neg (by simp)]
        rw [h]
    · rcases foldl_max_mem (n :: ns) 0 with h0 | hmem
      · have hn := (le_foldl_max (n :: ns) 0).2 n (by simp)
        rw [h0] at hn ⊢
        have : n = 0 := by omega
        simp [this]
      · exact hmem

/-- Witness for C4: no matching name yields `track-001`; the gapped listing
`track-001, track-003` yields `track-004` (max+1, not gap-filled). -/
theorem claim_C4_witness :
    (["junk".data].filterMap trackNumSearch = [] ∧
      getNextTrackId (some ["junk".data]) = "track-001".data) ∧
    (["track-001".data, "track-003".data].filterMap trackNumSearch = [1, 3] ∧
      getNextTrackId (some ["track-001".data, "track-003".data])
        = "track-004".data) := by
  refine ⟨⟨by decide, claim_C4_next_track_id.2.1 _ (by decide)⟩, ⟨by decide, ?_⟩⟩
  have h := (claim_C4_next_track_id.2.2 ["track-001".data, "track-003".data]
    1 [3] (by decide)).1
  rw [h]
  decide

/-- C6: `get_next_pending_track` returns the first parsed track, in
document order, whose status is not `completed`, and `none` exactly when
every parsed track is `completed` (in particular when there are none). -/
theorem claim_C6_first_incomplete (reg : Option Str) :
    getNextPendingTrack reg
        = (parseTracksOpt reg).find? (fun t => t.status != "completed".data) ∧
    (getNextPendingTrack reg = none ↔
      ∀ t ∈ parseTracksOpt reg, t.status = "completed".data) := by
  unfold getNextPendingTrack
  exact ⟨firstIncomplete_eq_find _, firstIncomplete_none_iff _⟩

/-- C7: `parse_tracks` is the filter-map of the per-section extraction over
the `---`-split sections (after dropping the header); a section with no
heading match contributes nothing (silently skipped, no error — the parse
is total), and a section whose heading matches but which has no folder link
also contributes nothing (records require a non-null id). -/
theorem claim_C7_parse_skips (content : Str) :
    parseTracks content = ((splitDashes content).drop 1).filterMap sectionTrack ∧
    (∀ sec : Str, headingSearch sec = none → sectionTrack sec = none) ∧
    (∀ (sec : Str) (m : Char) (g2 : Str), headingSearch sec = some (m, g2) →
      folderSearch sec = none → sectionTrack sec = none) := by
  refine ⟨parseGo_eq_filterMap _, ?_, ?_⟩
  · intro sec h
    unfold sectionTrack
    rw [h]
  · intro sec m g2 h hf
    unfold sectionTrack
    rw [h, hf]

/-- Witness for C7: a headingless section is ignored and a section with a
heading but no folder link yields no record. -/
theorem claim_C7_witness :
    headingSearch "\njust text\n".data = none ∧
    sectionTrack "\njust text\n".data = none ∧
    headingSearch "\n## [ ] Track: A\nno link\n".data = some (' ', "A".data) ∧
    folderSearch "\n## [ ] Track: A\nno link\n".data = none ∧
    sectionTrack "\n## [ ] Track: A\nno link\n".data = none :=
  ⟨by decide, (claim_C7_parse_skips []).2.1 _ (by decide), by decide, by decide,
    (claim_C7_parse_skips []).2.2 _ ' ' "A".data (by decide) (by decide)⟩

/-- C8: in `parse_plan`, a line of exactly four leading spaces followed by
`- [<marker>] <description>` (the description carrying no `Task:` text, so
the line is a subtask line and not a task line — the task pattern is
anchored at `-` and cannot match the indented line anyway) appends the
subtask record `(description, status)` to the most recently opened task
(`tasks[-1]`); when no task has been opened yet the line is dropped and the
state is unchanged. -/
theorem claim_C8_subtask_line (p : Option Str) (ts : List PTask) (m : Char)
    (d : Str) (hm : isMarker m = true) (hne : d ≠ []) (hst : stripL d = d)
    (hnl : '\n' ∉ d) (hTask : ¬ List.isPrefixOf "Task:".data d = true) :
    planStep (p, ts) ("    - [".data ++ [m] ++ "] ".data ++ d)
      = (p, if ts.isEmpty then ts
            else modifyLast
              (fun tk =>
                { tk with subtasks := tk.subtasks ++ [(d, statusName m)] }) ts) := by
  obtain ⟨c, d', rfl⟩ : ∃ c d', d = c :: d' := by
    cases d with
    | nil => exact absurd rfl hne
    | cons c d' => exact ⟨c, d', rfl⟩
  have hc : isWs c = false := stripL_head_not_ws hst
  have hline : "    - [".data ++ [m] ++ "] ".data ++ (c :: d')
      = ' ' :: ' ' :: ' ' :: ' ' :: '-' :: ' ' :: '[' :: m :: ']' :: ' ' :: (c :: d') := by
    rw [show ("    - [".data : Str) = [' ', ' ', ' ', ' ', '-', ' ', '['] from by decide]
    rw [show ("] ".data : Str) = [']', ' '] from by decide]
    simp
  rw [hline]
  have hsub : subtaskLineMatch
      (' ' :: ' ' :: ' ' :: ' ' :: '-' :: ' ' :: '[' :: m :: ']' :: ' ' :: (c :: d'))
      = some (m, c :: d') := by
    rw [subtaskLineMatch]
    rw [if_pos (by decide)]
    rw [show (' ' :: '[' :: m :: ']' :: ' ' :: (c :: d')).dropWhile isWs
        = '[' :: m :: ']' :: (' ' :: (c :: d'))
      from by rw [dropWhile_cons_true (by decide), dropWhile_cons_false (by decide)]]
    show (if isMarker m = true then
        match wsDotPlus (' ' :: (c :: d')) with
        | some g2 => some (m, g2)
        | none => none
      else none) = some (m, c :: d')
    rw [if_pos hm, wsDotPlus_sp_end hc hnl]
  rw [planStep]
  rw [if_neg (show ¬(List.isPrefixOf "## ".data
      (' ' :: ' ' :: ' ' :: ' ' :: '-' :: ' ' :: '[' :: m :: ']' :: ' ' :: c :: d')
      = true) from fun hx => by cases hx)]
  rw [show taskLineMatch
      (' ' :: ' ' :: ' ' :: ' ' :: '-' :: ' ' :: '[' :: m :: ']' :: ' ' :: (c :: d'))
      = none from rfl]
  rw [hsub]
  show (if ts.isEmpty = true then (p, ts)
      else (p, modifyLast (fun tk => { tk with
        subtasks := tk.subtasks ++ [(stripL (c :: d'), statusName m)] }) ts))
    = (p, if ts.isEmpty then ts
          else modifyLast (fun tk => { tk with
            subtasks := tk.subtasks ++ [(c :: d', statusName m)] }) ts)
  rw [hst]
  by_cases hts : ts.isEmpty = true
  · rw [if_pos hts, if_pos hts]
  · rw [if_neg hts, if_neg hts]

/-- Witness for C8: a subtask line under an open task is appended to it,
and the same line with no open task is dropped. -/
theorem claim_C8_witness :
    (isMarker 'x' = true ∧ ("Sub one".data : Str) ≠ [] ∧
      stripL "Sub one".data = "Sub one".data ∧ '\n' ∉ ("Sub one".data : Str) ∧
      ¬ List.isPrefixOf "Task:".data "Sub one".data = true) ∧
    planStep (some "P".data, [⟨some "P".data, "T".data, "pending".data, []⟩])
        ("    - [".data ++ ['x'] ++ "] ".data ++ "Sub one".data)
      = (some "P".data,
          [⟨some "P".data, "T".data, "pending".data,
            [("Sub one".data, "completed".data)]⟩]) ∧
    planStep (some "P".data, ([] : List PTask))
        ("    - [".data ++ ['x'] ++ "] ".data ++ "Sub one".data)
      = (some "P".data, []) := by
  refine ⟨⟨by decide, by decide, by decide, by decide, by decide⟩, ?_, ?_⟩
  · rw [claim_C8_subtask_line (some "P".data)
      [⟨some "P".data, "T".data, "pending".data, []⟩] 'x' "Sub one".data
      (by decide) (by decide) (by decide) (by decide) (by decide)]
    rfl
  · rw [claim_C8_subtask_line (some "P".data) [] 'x' "Sub one".data
      (by decide) (by decide) (by decide) (by decide) (by decide)]
    rfl

/-- C1 (counterexample): the round trip is not exact for every description.
With the single description "a\nb", `create_track` succeeds and appends the
block verbatim, but a subsequent `parse_tracks` returns a record whose
description is only "a": the heading regex group `(.+)` stops at the
newline that the description itself introduced into the heading line. -/
theorem claim_C1_counterexample :
    runCreates initStore ["a\nb".data]
      = .ok ⟨some ["track-001".data],
          some (hdr0 ++ entryFor "a\nb".data "track-001".data)⟩ ∧
    (parseTracksOpt (storeOf (runCreates initStore ["a\nb".data])).reg).map
      Track.description = ["a".data] ∧
    ("a".data : Str) ≠ "a\nb".data := by
  refine ⟨by rfl, by decide, by decide⟩

/-- C1 (amended): for every sequence of descriptions that are nonempty,
single-line, whitespace-trimmed, and contain neither "---" nor the literal
"[conductor/tracks/", running the `create_track` sequence from the fresh
store succeeds, produces the directories `track-001 … track-NNN` and the
canonical registry text, and a subsequent `parse_tracks` returns exactly
the created records in creation order: record `i` has id `track-{i:03d}`,
the original description, and status `pending`. -/
theorem claim_C1_round_trip (ds : List Str) (hgood : ∀ d ∈ ds, GoodDesc d) :
    runCreates initStore ds
      = .ok ⟨some (idsRange ds.length), some (hdr0 ++ entriesFrom 1 ds)⟩ ∧
    parseTracksOpt (some (hdr0 ++ entriesFrom 1 ds)) = expectedFrom 1 ds := by
  constructor
  · have h := runCreates_general ds 0 hdr0
    rw [Nat.zero_add] at h
    exact h
  · unfold parseTracksOpt
    exact parseTracks_entries ds hgood

/-- Witness for C1 (amended) at the concrete descriptions "Login",
"Search". -/
theorem claim_C1_witness :
    (∀ d ∈ [("Login".data : Str), "Search".data], GoodDesc d) ∧
    (runCreates initStore ["Login".data, "Search".data]
        = .ok ⟨some (idsRange 2),
            some (hdr0 ++ entriesFrom 1 ["Login".data, "Search".data])⟩ ∧
      parseTracksOpt (some (hdr0 ++ entriesFrom 1 ["Login".data, "Search".data]))
        = expectedFrom 1 ["Login".data, "Search".data]) := by
  exact ⟨by decide, claim_C1_round_trip ["Login".data, "Search".data] (by decide)⟩

/-- C2 (counterexample): `update_track_status` is not idempotent on every
registry in which the id is present.  In this document the id "## [x" is
present (it is the folder-link group of the second block), but the first
call also rewrites a heading-shaped substring inside the FIRST block's
folder link, so on the second call the id "## [x" resolves to the first
block (description "B" instead of "C") and the document changes again. -/
theorem claim_C2_counterexample :
    (getTrackById
        (some ("H\n---\n## [ ] Track: B\nfoo [conductor/tracks/## [ ] Track: C] bar\n---\n## [ ] Track: C\nbaz [conductor/tracks/## [x] qux\n".data))
        "## [x".data).isSome = true ∧
    regOf (updateTrackStatus
        (some ("H\n---\n## [ ] Track: B\nfoo [conductor/tracks/## [ ] Track: C] bar\n---\n## [ ] Track: C\nbaz [conductor/tracks/## [x] qux\n".data))
        "## [x".data "completed".data)
      = some ("H\n---\n## [ ] Track: B\nfoo [conductor/tracks/## [x] Track: C] bar\n---\n## [x] Track: C\nbaz [conductor/tracks/## [x] qux\n".data) ∧
    regOf (updateTrackStatus
        (some ("H\n---\n## [ ] Track: B\nfoo [conductor/tracks/## [x] Track: C] bar\n---\n## [x] Track: C\nbaz [conductor/tracks/## [x] qux\n".data))
        "## [x".data "completed".data)
      ≠ some ("H\n---\n## [ ] Track: B\nfoo [conductor/tracks/## [x] Track: C] bar\n---\n## [x] Track: C\nbaz [conductor/tracks/## [x] qux\n".data) := by
  refine ⟨by decide, by rfl, by decide⟩

/-- C2 (amended): on EVERY canonical registry — the header followed by any
number of blocks in the exact shape `add_track_to_registry` writes, each
with a valid status marker and a plain description (nonempty, single-line,
whitespace-trimmed, containing none of `---`, `[conductor/tracks/`, `##`,
or a backslash) — and for EVERY id string and EVERY status string,
calling `update_track_status` twice in succession leaves the registry
byte-for-byte identical to the state after the first call. -/
theorem claim_C2_idempotent (ps : List (Char × Str)) (tid s : Str)
    (hps : ∀ p ∈ ps, GoodPair p) :
    updateTrackStatus (regOf (updateTrackStatus
        (some (hdr0 ++ entriesFromM 1 ps)) tid s)) tid s
      = updateTrackStatus (some (hdr0 ++ entriesFromM 1 ps)) tid s := by
  have h1 := updateTrackStatus_canon ps tid s hps
  cases hfind : (expectedFromM 1 ps).find? (fun t => t.id = tid) with
  | none =>
    rw [hfind] at h1
    rw [h1]
    exact h1
  | some tr =>
    rw [hfind] at h1
    replace h1 : updateTrackStatus (some (hdr0 ++ entriesFromM 1 ps)) tid s
        = Except.ok (some (hdr0 ++ entriesFromM 1
            (markSet tr.description (statusChar s) ps))) := h1
    rw [h1]
    show updateTrackStatus (some (hdr0 ++ entriesFromM 1
        (markSet tr.description (statusChar s) ps))) tid s = _
    have hps' : ∀ q ∈ markSet tr.description (statusChar s) ps, GoodPair q :=
      markSet_good (statusChar_marker s) hps
    have h2 := updateTrackStatus_canon
      (markSet tr.description (statusChar s) ps) tid s hps'
    have hdesc := find?_markSet_desc tr.description (statusChar s) tid ps 1
    rw [hfind] at hdesc
    cases hfind' : (expectedFromM 1 (markSet tr.description (statusChar s) ps)).find?
        (fun t => t.id = tid) with
    | none => rw [hfind'] at hdesc; cases hdesc
    | some tr' =>
      rw [hfind'] at hdesc h2
      have htr' : tr'.description = tr.description := Option.some.inj hdesc
      replace h2 : updateTrackStatus (some (hdr0 ++ entriesFromM 1
          (markSet tr.description (statusChar s) ps))) tid s
        = Except.ok (some (hdr0 ++ entriesFromM 1
            (markSet tr'.description (statusChar s)
              (markSet tr.description (statusChar s) ps)))) := h2
      rw [htr', markSet_markSet] at h2
      exact h2

/-- Witness for C2 (amended): a concrete two-track canonical registry with
markers `' '`, `'~'` and descriptions "A", "B", updated twice to
`completed` under `track-001`. -/
theorem claim_C2_witness :
    (∀ p ∈ [((' ' : Char), "A".data), (('~' : Char), "B".data)], GoodPair p) ∧
    updateTrackStatus (regOf (updateTrackStatus
        (some (hdr0 ++ entriesFromM 1 [(' ', "A".data), ('~', "B".data)]))
        "track-001".data "completed".data)) "track-001".data "completed".data
      = updateTrackStatus
        (some (hdr0 ++ entriesFromM 1 [(' ', "A".data), ('~', "B".data)]))
        "track-001".data "completed".data := by
  exact ⟨by decide, claim_C2_idempotent [(' ', "A".data), ('~', "B".data)]
    "track-001".data "completed".data (by decide)⟩

/-- C3 (counterexample): when two track headings carry the same description
"A", `update_track_status` rewrites BOTH markers, not only the first one in
document order: `re.sub` without a count replaces every non-overlapping
match.  The result differs from the document in which only the first
heading was updated. -/
theorem claim_C3_counterexample :
    updateTrackStatus (some (twoDoc ' ' ' ' "A".data "A".data))
        "track-001".data "completed".data
      = .ok (some (twoDoc 'x' 'x' "A".data "A".data)) ∧
    twoDoc 'x' 'x' "A".data "A".data ≠ twoDoc 'x' ' ' "A".data "A".data := by
  refine ⟨by rfl, by decide⟩

/-- C3 (amended): on EVERY canonical registry (any number of blocks, valid
markers, plain descriptions), whenever `get_track_by_id` resolves the given
id to a track, `update_track_status` rewrites the status marker of EVERY
block whose description the substitution pattern matches — every block
whose description starts with the looked-up description (in particular
every block whose description is equal to it), not only the first one in
document order; all other blocks are unchanged. -/
theorem claim_C3_all_occurrences (ps : List (Char × Str)) (tid s : Str)
    (tr : Track) (hps : ∀ p ∈ ps, GoodPair p)
    (hfind : getTrackById (some (hdr0 ++ entriesFromM 1 ps)) tid = some tr) :
    updateTrackStatus (some (hdr0 ++ entriesFromM 1 ps)) tid s
      = .ok (some (hdr0 ++ entriesFromM 1 (ps.map (fun p =>
          (if List.isPrefixOf tr.description p.2 then statusChar s else p.1,
            p.2))))) := by
  have h1 := updateTrackStatus_canon ps tid s hps
  rw [getTrackById_canon ps tid hps] at hfind
  rw [hfind] at h1
  exact h1

/-- Witness for C3 (amended): two blocks share the description "A";
updating `track-001` to `completed` turns BOTH markers to `'x'`. -/
theorem claim_C3_witness :
    (∀ p ∈ [((' ' : Char), "A".data), (('~' : Char), "A".data)], GoodPair p) ∧
    getTrackById (some (hdr0 ++ entriesFromM 1 [(' ', "A".data), ('~', "A".data)]))
        "track-001".data
      = some ⟨"track-001".data, "A".data, "pending".data,
          "conductor/tracks/track-001".data⟩ ∧
    updateTrackStatus
        (some (hdr0 ++ entriesFromM 1 [(' ', "A".data), ('~', "A".data)]))
        "track-001".data "completed".data
      = .ok (some (hdr0 ++ entriesFromM 1
          ([(' ', "A".data), ('~', "A".data)].map (fun p =>
            (if List.isPrefixOf (Track.description ⟨"track-001".data, "A".data,
                "pending".data, "conductor/tracks/track-001".data⟩) p.2
              then statusChar "completed".data else p.1, p.2))))) := by
  exact ⟨by decide, by decide,
    claim_C3_all_occurrences [(' ', "A".data), ('~', "A".data)]
      "track-001".data "completed".data
      ⟨"track-001".data, "A".data, "pending".data,
        "conductor/tracks/track-001".data⟩
      (by decide) (by decide)⟩
